import Mathlib

/-!
# Verification of the tracking-issue reconciliation engine (`rfc.rs`)

This file gives a shallow embedding of the reconciliation engine of
`crates/rust-project-goals-cli/src/rfc.rs` and proves the specified
properties about it.

The engine works with Rust `BTreeSet`s ordered by derived `Ord` instances.
We model a `BTreeSet` as a strictly sorted list together with an explicit
comparator of type `α → α → Ordering` mirroring the derived `Ord`
(lexicographic on fields, variant order on enums).  The first section
develops this comparator theory.
-/

section Comparators

variable {α β : Type}

/-- Lawfulness of a comparator with respect to propositional equality:
`cmp` is exactly the comparison function of a linear order whose associated
equality is `=`.  This is what Rust's derived `Ord`/`Eq` pairs satisfy. -/
structure LawfulCmp (cmp : α → α → Ordering) : Prop where
  eqIff : ∀ a b, cmp a b = .eq ↔ a = b
  ltTrans : ∀ {a b c}, cmp a b = .lt → cmp b c = .lt → cmp a c = .lt
  gtIff : ∀ a b, cmp a b = .gt ↔ cmp b a = .lt

namespace LawfulCmp

variable {cmp : α → α → Ordering}

theorem eqRefl (h : LawfulCmp cmp) (a : α) : cmp a a = .eq := (h.eqIff a a).mpr rfl

theorem ltIrrefl (h : LawfulCmp cmp) (a : α) : cmp a a ≠ .lt := by
  have := h.eqRefl a
  intro hlt
  rw [this] at hlt
  exact Ordering.noConfusion hlt

theorem ltOfLtOfEq (h : LawfulCmp cmp) {a b c : α} (h1 : cmp a b = .lt)
    (h2 : cmp b c = .eq) : cmp a c = .lt := by
  rw [h.eqIff] at h2
  exact h2 ▸ h1

theorem ltOfEqOfLt (h : LawfulCmp cmp) {a b c : α} (h1 : cmp a b = .eq)
    (h2 : cmp b c = .lt) : cmp a c = .lt := by
  rw [h.eqIff] at h1
  exact h1 ▸ h2

theorem ltAsymm (h : LawfulCmp cmp) {a b : α} (h1 : cmp a b = .lt) : cmp b a ≠ .lt := by
  intro h2
  exact h.ltIrrefl a (h.ltTrans h1 h2)

theorem neOfLt (h : LawfulCmp cmp) {a b : α} (h1 : cmp a b = .lt) : a ≠ b := by
  intro he
  subst he
  exact h.ltIrrefl a h1

theorem trichotomy (_h : LawfulCmp cmp) (a b : α) :
    cmp a b = .lt ∨ cmp a b = .eq ∨ cmp a b = .gt := by
  cases hc : cmp a b
  · exact Or.inl rfl
  · exact Or.inr (Or.inl rfl)
  · exact Or.inr (Or.inr rfl)

theorem ltOrGtOfNe (h : LawfulCmp cmp) {a b : α} (hne : a ≠ b) :
    cmp a b = .lt ∨ cmp a b = .gt := by
  rcases h.trichotomy a b with hc | hc | hc
  · exact Or.inl hc
  · exact absurd ((h.eqIff a b).mp hc) hne
  · exact Or.inr hc

end LawfulCmp

/-- Comparator induced by a linear order (this is how primitive fields such
as `u64` and `bool` are compared by Rust's derived `Ord`). -/
def cmpLin [LinearOrder α] (a b : α) : Ordering :=
  if a < b then .lt else if b < a then .gt else .eq

theorem cmpLin_lt_iff [LinearOrder α] (a b : α) : cmpLin a b = .lt ↔ a < b := by
  unfold cmpLin
  split_ifs with h1 h2
  · simp [h1]
  · simp only [reduceCtorEq, false_iff]
    exact fun hl => absurd hl (not_lt_of_gt h2)
  · simp only [reduceCtorEq, false_iff]
    exact h1

theorem cmpLin_gt_iff [LinearOrder α] (a b : α) : cmpLin a b = .gt ↔ b < a := by
  unfold cmpLin
  split_ifs with h1 h2
  · simp only [reduceCtorEq, false_iff]
    exact fun hl => absurd hl (not_lt_of_gt h1)
  · simp [h2]
  · simp only [reduceCtorEq, false_iff]
    exact h2

theorem cmpLin_eq_iff [LinearOrder α] (a b : α) : cmpLin a b = .eq ↔ a = b := by
  unfold cmpLin
  split_ifs with h1 h2
  · simp only [reduceCtorEq, false_iff]
    exact ne_of_lt h1
  · simp only [reduceCtorEq, false_iff]
    exact (ne_of_lt h2).symm
  · simp only [true_iff]
    exact le_antisymm (le_of_not_lt h2) (le_of_not_lt h1)

theorem lawful_cmpLin [LinearOrder α] : LawfulCmp (cmpLin (α := α)) where
  eqIff := cmpLin_eq_iff
  ltTrans := by
    intro a b c h1 h2
    rw [cmpLin_lt_iff] at h1 h2 ⊢
    exact lt_trans h1 h2
  gtIff := by
    intro a b
    rw [cmpLin_gt_iff, cmpLin_lt_iff]

/-- Pull a comparator back along a function (used to compare a structure by
a tuple of its fields). -/
def cmpOn (f : α → β) (cmp : β → β → Ordering) (a b : α) : Ordering :=
  cmp (f a) (f b)

theorem lawful_cmpOn {f : α → β} {cmp : β → β → Ordering} (hf : Function.Injective f)
    (h : LawfulCmp cmp) : LawfulCmp (cmpOn f cmp) where
  eqIff := by
    intro a b
    unfold cmpOn
    rw [h.eqIff]
    exact ⟨fun he => hf he, fun he => he ▸ rfl⟩
  ltTrans := by
    intro a b c h1 h2
    exact h.ltTrans h1 h2
  gtIff := by
    intro a b
    exact h.gtIff (f a) (f b)

/-- Lexicographic comparator on pairs, as produced by Rust's derived `Ord`
for consecutive struct fields. -/
def cmpProd (ca : α → α → Ordering) (cb : β → β → Ordering) (p q : α × β) : Ordering :=
  (ca p.1 q.1).then (cb p.2 q.2)

theorem lawful_cmpProd {ca : α → α → Ordering} {cb : β → β → Ordering}
    (ha : LawfulCmp ca) (hb : LawfulCmp cb) : LawfulCmp (cmpProd ca cb) where
  eqIff := by
    intro p q
    unfold cmpProd
    rw [Ordering.then_eq_eq, ha.eqIff, hb.eqIff, Prod.ext_iff]
  ltTrans := by
    intro p q r h1 h2
    unfold cmpProd at h1 h2 ⊢
    rw [Ordering.then_eq_lt] at h1 h2 ⊢
    rcases h1 with h1 | ⟨h1e, h1l⟩ <;> rcases h2 with h2 | ⟨h2e, h2l⟩
    · exact Or.inl (ha.ltTrans h1 h2)
    · exact Or.inl (ha.ltOfLtOfEq h1 h2e)
    · exact Or.inl (ha.ltOfEqOfLt h1e h2)
    · exact Or.inr ⟨(ha.eqIff _ _).mpr (((ha.eqIff _ _).mp h1e).trans ((ha.eqIff _ _).mp h2e)),
        hb.ltTrans h1l h2l⟩
  gtIff := by
    intro p q
    unfold cmpProd
    rw [Ordering.then_eq_gt, Ordering.then_eq_lt, ha.gtIff, hb.gtIff]
    constructor
    · rintro (h | ⟨he, hg⟩)
      · exact Or.inl h
      · refine Or.inr ⟨?_, hg⟩
        rw [ha.eqIff] at he ⊢
        exact he.symm
    · rintro (h | ⟨he, hg⟩)
      · exact Or.inl h
      · refine Or.inr ⟨?_, hg⟩
        rw [ha.eqIff] at he ⊢
        exact he.symm

/-- Lexicographic comparator on lists, as produced by Rust's derived `Ord`
for `Vec` and `BTreeSet` fields (a strict prefix is smaller). -/
def cmpList (cmp : α → α → Ordering) : List α → List α → Ordering
  | [], [] => .eq
  | [], _ :: _ => .lt
  | _ :: _, [] => .gt
  | a :: as, b :: bs => (cmp a b).then (cmpList cmp as bs)

theorem lawful_cmpList {cmp : α → α → Ordering} (h : LawfulCmp cmp) :
    LawfulCmp (cmpList cmp) where
  eqIff := by
    intro l1
    induction l1 with
    | nil =>
      intro l2
      cases l2 <;> simp [cmpList]
    | cons a as ih =>
      intro l2
      cases l2 with
      | nil => simp [cmpList]
      | cons b bs =>
        simp only [cmpList, Ordering.then_eq_eq, h.eqIff, ih, List.cons.injEq]
  ltTrans := by
    intro l1
    induction l1 with
    | nil =>
      intro l2 l3 h1 h2
      cases l2 with
      | nil => exact h2
      | cons b bs =>
        cases l3 with
        | nil => simp [cmpList] at h2
        | cons c cs => simp [cmpList]
    | cons a as ih =>
      intro l2 l3 h1 h2
      cases l2 with
      | nil => simp [cmpList] at h1
      | cons b bs =>
        cases l3 with
        | nil => simp [cmpList] at h2
        | cons c cs =>
          simp only [cmpList, Ordering.then_eq_lt] at h1 h2 ⊢
          rcases h1 with h1 | ⟨h1e, h1l⟩ <;> rcases h2 with h2 | ⟨h2e, h2l⟩
          · exact Or.inl (h.ltTrans h1 h2)
          · exact Or.inl (h.ltOfLtOfEq h1 h2e)
          · exact Or.inl (h.ltOfEqOfLt h1e h2)
          · exact Or.inr ⟨(h.eqIff _ _).mpr (((h.eqIff _ _).mp h1e).trans ((h.eqIff _ _).mp h2e)),
              ih h1l h2l⟩
  gtIff := by
    intro l1
    induction l1 with
    | nil =>
      intro l2
      cases l2 <;> simp [cmpList]
    | cons a as ih =>
      intro l2
      cases l2 with
      | nil => simp [cmpList]
      | cons b bs =>
        simp only [cmpList, Ordering.then_eq_gt, Ordering.then_eq_lt, h.gtIff, ih]
        constructor
        · rintro (hg | ⟨he, hg⟩)
          · exact Or.inl hg
          · refine Or.inr ⟨?_, hg⟩
            rw [h.eqIff] at he ⊢
            exact he.symm
        · rintro (hg | ⟨he, hg⟩)
          · exact Or.inl hg
          · refine Or.inr ⟨?_, hg⟩
            rw [h.eqIff] at he ⊢
            exact he.symm

/-- Comparator on `Option`, as produced by Rust's derived `Ord`
(`None < Some _`). -/
def cmpOption (cmp : α → α → Ordering) : Option α → Option α → Ordering
  | none, none => .eq
  | none, some _ => .lt
  | some _, none => .gt
  | some a, some b => cmp a b

theorem lawful_cmpOption {cmp : α → α → Ordering} (h : LawfulCmp cmp) :
    LawfulCmp (cmpOption cmp) where
  eqIff := by
    intro o1 o2
    cases o1 <;> cases o2 <;> simp [cmpOption, h.eqIff]
  ltTrans := by
    intro o1 o2 o3 h1 h2
    cases o1 <;> cases o2 <;> cases o3 <;> simp_all [cmpOption]
    exact h.ltTrans h1 h2
  gtIff := by
    intro o1 o2
    cases o1 <;> cases o2 <;> simp [cmpOption, h.gtIff]

end Comparators

section BTreeSetModel

variable {α : Type} {cmp : α → α → Ordering}

/-- Strictly-sorted predicate for the list representation of a `BTreeSet`
ordered by `cmp`. -/
def SortedBy (cmp : α → α → Ordering) (l : List α) : Prop :=
  l.Pairwise (fun a b => cmp a b = .lt)

/-- Insertion into the sorted-list representation of a `BTreeSet`: keeps the
list sorted and drops the new element when an equal element is present
(`BTreeSet::insert` does not replace an existing equal element, and for the
derived `Ord`s used here equal keys are equal values anyway). -/
def btreeInsert (cmp : α → α → Ordering) (x : α) : List α → List α
  | [] => [x]
  | y :: ys =>
    match cmp x y with
    | .lt => x :: y :: ys
    | .eq => y :: ys
    | .gt => y :: btreeInsert cmp x ys

/-- `BTreeSet::extend` / `collect`: insert all elements of a list. -/
def btreeExtend (cmp : α → α → Ordering) (xs : List α) (acc : List α) : List α :=
  xs.foldl (fun s x => btreeInsert cmp x s) acc

/-- `BTreeSet::remove` on the sorted-list representation. -/
def btreeRemove (cmp : α → α → Ordering) (x : α) : List α → List α
  | [] => []
  | y :: ys =>
    match cmp x y with
    | .lt => y :: ys
    | .eq => ys
    | .gt => y :: btreeRemove cmp x ys

theorem mem_btreeInsert (h : LawfulCmp cmp) (x a : α) :
    ∀ l : List α, a ∈ btreeInsert cmp x l ↔ a = x ∨ a ∈ l := by
  intro l
  induction l with
  | nil => simp [btreeInsert]
  | cons y ys ih =>
    unfold btreeInsert
    cases hc : cmp x y with
    | lt => simp
    | eq =>
      rw [h.eqIff] at hc
      subst hc
      simp only [List.mem_cons]
      constructor
      · intro hmem
        exact Or.inr hmem
      · rintro (he | hmem)
        · exact Or.inl he
        · exact hmem
    | gt =>
      simp only [List.mem_cons, ih]
      constructor
      · rintro (he | he | hmem)
        · exact Or.inr (Or.inl he)
        · exact Or.inl he
        · exact Or.inr (Or.inr hmem)
      · rintro (he | he | hmem)
        · exact Or.inr (Or.inl he)
        · exact Or.inl he
        · exact Or.inr (Or.inr hmem)

theorem sortedBy_btreeInsert (h : LawfulCmp cmp) (x : α) :
    ∀ l : List α, SortedBy cmp l → SortedBy cmp (btreeInsert cmp x l) := by
  intro l
  induction l with
  | nil =>
    intro _
    simp [btreeInsert, SortedBy]
  | cons y ys ih =>
    intro hs
    rw [SortedBy, List.pairwise_cons] at hs
    obtain ⟨hy, hys⟩ := hs
    unfold btreeInsert
    cases hc : cmp x y with
    | lt =>
      rw [SortedBy, List.pairwise_cons]
      refine ⟨?_, ?_⟩
      · intro b hb
        rcases List.mem_cons.mp hb with he | hmem
        · exact he ▸ hc
        · exact h.ltTrans hc (hy b hmem)
      · rw [List.pairwise_cons]
        exact ⟨hy, hys⟩
    | eq =>
      rw [SortedBy, List.pairwise_cons]
      exact ⟨hy, hys⟩
    | gt =>
      rw [SortedBy, List.pairwise_cons]
      refine ⟨?_, ih hys⟩
      intro b hb
      rcases (mem_btreeInsert h x b ys).mp hb with he | hmem
      · rw [he]
        exact (h.gtIff x y).mp hc
      · exact hy b hmem

theorem mem_btreeExtend (h : LawfulCmp cmp) (a : α) :
    ∀ (xs acc : List α), a ∈ btreeExtend cmp xs acc ↔ a ∈ xs ∨ a ∈ acc := by
  intro xs
  induction xs with
  | nil => simp [btreeExtend]
  | cons x xs ih =>
    intro acc
    show a ∈ btreeExtend cmp xs (btreeInsert cmp x acc) ↔ _
    rw [ih, mem_btreeInsert h]
    simp only [List.mem_cons]
    tauto

theorem sortedBy_btreeExtend (h : LawfulCmp cmp) :
    ∀ (xs acc : List α), SortedBy cmp acc → SortedBy cmp (btreeExtend cmp xs acc) := by
  intro xs
  induction xs with
  | nil =>
    intro acc hs
    exact hs
  | cons x xs ih =>
    intro acc hs
    exact ih _ (sortedBy_btreeInsert h x acc hs)

theorem btreeRemove_sublist (cmp : α → α → Ordering) (x : α) :
    ∀ l : List α, (btreeRemove cmp x l).Sublist l := by
  intro l
  induction l with
  | nil => simp [btreeRemove]
  | cons y ys ih =>
    unfold btreeRemove
    cases cmp x y with
    | lt => exact List.Sublist.refl _
    | eq => exact List.sublist_cons_self y ys
    | gt => exact List.Sublist.cons₂ y ih

theorem sortedBy_btreeRemove (hs : SortedBy cmp l) (x : α) :
    SortedBy cmp (btreeRemove cmp x l) :=
  List.Pairwise.sublist (btreeRemove_sublist cmp x l) hs

theorem mem_btreeRemove (h : LawfulCmp cmp) (x a : α) :
    ∀ l : List α, SortedBy cmp l → (a ∈ btreeRemove cmp x l ↔ a ∈ l ∧ cmp a x ≠ .eq) := by
  intro l
  induction l with
  | nil => simp [btreeRemove]
  | cons y ys ih =>
    intro hs
    rw [SortedBy, List.pairwise_cons] at hs
    obtain ⟨hy, hys⟩ := hs
    unfold btreeRemove
    cases hc : cmp x y with
    | lt =>
      simp only [List.mem_cons]
      constructor
      · rintro (he | hmem)
        · refine ⟨Or.inl he, ?_⟩
          intro heq
          rw [h.eqIff] at heq
          rw [← heq, he] at hc
          exact h.ltIrrefl y hc
        · refine ⟨Or.inr hmem, ?_⟩
          intro heq
          rw [h.eqIff] at heq
          rw [heq] at hmem
          exact h.ltIrrefl x (h.ltTrans hc (hy x hmem))
      · rintro ⟨hmem, _⟩
        exact hmem
    | eq =>
      rw [h.eqIff] at hc
      subst hc
      simp only [List.mem_cons]
      constructor
      · intro hmem
        refine ⟨Or.inr hmem, ?_⟩
        intro heq
        rw [h.eqIff] at heq
        subst heq
        exact h.ltIrrefl a (hy a hmem)
      · rintro ⟨hmem | hmem, hne⟩
        · exact absurd ((h.eqIff _ _).mpr hmem) hne
        · exact hmem
    | gt =>
      simp only [List.mem_cons, ih hys]
      constructor
      · rintro (he | ⟨hmem, hne⟩)
        · refine ⟨Or.inl he, ?_⟩
          intro heq
          rw [h.eqIff] at heq
          rw [← heq, he] at hc
          exact absurd ((h.gtIff y y).mp hc) (h.ltIrrefl y)
        · exact ⟨Or.inr hmem, hne⟩
      · rintro ⟨hmem | hmem, hne⟩
        · exact Or.inl hmem
        · exact Or.inr ⟨hmem, hne⟩

theorem mem_foldl_btreeRemove (h : LawfulCmp cmp) (a : α) :
    ∀ (xs : List α) (init : List α), SortedBy cmp init →
      (a ∈ xs.foldl (fun acc x => btreeRemove cmp x acc) init ↔
        a ∈ init ∧ ∀ x ∈ xs, cmp a x ≠ .eq) := by
  intro xs
  induction xs with
  | nil => simp
  | cons x xs ih =>
    intro init hs
    show a ∈ xs.foldl _ (btreeRemove cmp x init) ↔ _
    rw [ih _ (sortedBy_btreeRemove hs x), mem_btreeRemove h x a init hs]
    simp only [List.mem_cons]
    constructor
    · rintro ⟨⟨hmem, hne⟩, hall⟩
      refine ⟨hmem, ?_⟩
      rintro b (rfl | hb)
      · exact hne
      · exact hall b hb
    · rintro ⟨hmem, hall⟩
      exact ⟨⟨hmem, hall x (Or.inl rfl)⟩, fun b hb => hall b (Or.inr hb)⟩

/-- Strictly sorted lists are duplicate-free. -/
theorem SortedBy.nodup (h : LawfulCmp cmp) {l : List α} (hs : SortedBy cmp l) : l.Nodup :=
  hs.imp fun hab => h.neOfLt hab

/-- A comparator that is lawful only up to its own equivalence (`.eq` need
not mean propositional equality).  `GhLabel.cmpByName` compares labels by
name only and satisfies this but not `LawfulCmp`. -/
structure WeakCmp (cmp : α → α → Ordering) : Prop where
  eqRefl : ∀ a, cmp a a = .eq
  ltTrans : ∀ {a b c}, cmp a b = .lt → cmp b c = .lt → cmp a c = .lt
  gtIff : ∀ a b, cmp a b = .gt ↔ cmp b a = .lt
  ltOfEqOfLt : ∀ {a b c}, cmp a b = .eq → cmp b c = .lt → cmp a c = .lt
  ltOfLtOfEq : ∀ {a b c}, cmp a b = .lt → cmp b c = .eq → cmp a c = .lt

namespace WeakCmp

variable {cmp : α → α → Ordering}

theorem ltIrreflW (h : WeakCmp cmp) (a : α) : cmp a a ≠ .lt := by
  have := h.eqRefl a
  intro hlt
  rw [this] at hlt
  exact Ordering.noConfusion hlt

theorem eqSymm (h : WeakCmp cmp) {a b : α} (he : cmp a b = .eq) : cmp b a = .eq := by
  cases hc : cmp b a with
  | lt =>
    have := (h.gtIff a b).mpr hc
    rw [he] at this
    exact Ordering.noConfusion this
  | eq => rfl
  | gt =>
    have := (h.gtIff b a).mp hc
    rw [he] at this
    exact Ordering.noConfusion this

end WeakCmp

theorem LawfulCmp.toWeakCmp (h : LawfulCmp cmp) : WeakCmp cmp where
  eqRefl := h.eqRefl
  ltTrans := h.ltTrans
  gtIff := h.gtIff
  ltOfEqOfLt := h.ltOfEqOfLt
  ltOfLtOfEq := h.ltOfLtOfEq

theorem weak_cmpOn {β : Type} {f : α → β} {cmp2 : β → β → Ordering} (h : WeakCmp cmp2) :
    WeakCmp (cmpOn f cmp2) where
  eqRefl a := h.eqRefl (f a)
  ltTrans := fun h1 h2 => h.ltTrans h1 h2
  gtIff a b := h.gtIff (f a) (f b)
  ltOfEqOfLt := fun h1 h2 => h.ltOfEqOfLt h1 h2
  ltOfLtOfEq := fun h1 h2 => h.ltOfLtOfEq h1 h2

/-- Forward membership bound for insertion, with no lawfulness assumption. -/
theorem mem_btreeInsert_sub (x a : α) :
    ∀ l : List α, a ∈ btreeInsert cmp x l → a = x ∨ a ∈ l := by
  intro l
  induction l with
  | nil => simp [btreeInsert]
  | cons y ys ih =>
    unfold btreeInsert
    cases cmp x y with
    | lt => simp
    | eq =>
      intro hmem
      exact Or.inr hmem
    | gt =>
      intro hmem
      rcases List.mem_cons.mp hmem with he | hmem2
      · exact Or.inr (List.mem_cons.mpr (Or.inl he))
      · rcases ih hmem2 with he | hmem3
        · exact Or.inl he
        · exact Or.inr (List.mem_cons.mpr (Or.inr hmem3))

theorem sortedBy_btreeInsert_weak (h : WeakCmp cmp) (x : α) :
    ∀ l : List α, SortedBy cmp l → SortedBy cmp (btreeInsert cmp x l) := by
  intro l
  induction l with
  | nil =>
    intro _
    simp [btreeInsert, SortedBy]
  | cons y ys ih =>
    intro hs
    rw [SortedBy, List.pairwise_cons] at hs
    obtain ⟨hy, hys⟩ := hs
    unfold btreeInsert
    cases hc : cmp x y with
    | lt =>
      rw [SortedBy, List.pairwise_cons]
      refine ⟨?_, ?_⟩
      · intro b hb
        rcases List.mem_cons.mp hb with he | hmem
        · exact he ▸ hc
        · exact h.ltTrans hc (hy b hmem)
      · rw [List.pairwise_cons]
        exact ⟨hy, hys⟩
    | eq =>
      rw [SortedBy, List.pairwise_cons]
      exact ⟨hy, hys⟩
    | gt =>
      rw [SortedBy, List.pairwise_cons]
      refine ⟨?_, ih hys⟩
      intro b hb
      rcases mem_btreeInsert_sub x b ys hb with he | hmem
      · rw [he]
        exact (h.gtIff x y).mp hc
      · exact hy b hmem

theorem sortedBy_btreeExtend_weak (h : WeakCmp cmp) :
    ∀ (xs acc : List α), SortedBy cmp acc → SortedBy cmp (btreeExtend cmp xs acc) := by
  intro xs
  induction xs with
  | nil =>
    intro acc hs
    exact hs
  | cons x xs ih =>
    intro acc hs
    exact ih _ (sortedBy_btreeInsert_weak h x acc hs)

theorem mem_btreeRemove_weak (h : WeakCmp cmp) (x a : α) :
    ∀ l : List α, SortedBy cmp l → (a ∈ btreeRemove cmp x l ↔ a ∈ l ∧ cmp a x ≠ .eq) := by
  intro l
  induction l with
  | nil => simp [btreeRemove]
  | cons y ys ih =>
    intro hs
    rw [SortedBy, List.pairwise_cons] at hs
    obtain ⟨hy, hys⟩ := hs
    unfold btreeRemove
    cases hc : cmp x y with
    | lt =>
      simp only [List.mem_cons]
      constructor
      · rintro (he | hmem)
        · refine ⟨Or.inl he, ?_⟩
          intro heq
          rw [he] at heq
          exact h.ltIrreflW y (h.ltOfEqOfLt heq hc)
        · refine ⟨Or.inr hmem, ?_⟩
          intro heq
          exact h.ltIrreflW a (h.ltTrans (h.ltOfEqOfLt heq hc) (hy a hmem))
      · rintro ⟨hmem, _⟩
        exact hmem
    | eq =>
      simp only [List.mem_cons]
      constructor
      · intro hmem
        refine ⟨Or.inr hmem, ?_⟩
        intro heq
        have h1 : cmp y a = .lt := hy a hmem
        have h2 : cmp y x = .lt := h.ltOfLtOfEq h1 heq
        have h3 : cmp y x = .eq := h.eqSymm hc
        rw [h3] at h2
        exact Ordering.noConfusion h2
      · rintro ⟨hmem | hmem, hne⟩
        · have h3 : cmp a x = .eq := h.eqSymm (hmem ▸ hc)
          exact absurd h3 hne
        · exact hmem
    | gt =>
      simp only [List.mem_cons, ih hys]
      constructor
      · rintro (he | ⟨hmem, hne⟩)
        · refine ⟨Or.inl he, ?_⟩
          intro heq
          have h1 : cmp y x = .lt := (h.gtIff x y).mp hc
          have h2 : cmp y x = .eq := he ▸ heq
          rw [h2] at h1
          exact Ordering.noConfusion h1
        · exact ⟨Or.inr hmem, hne⟩
      · rintro ⟨hmem | hmem, hne⟩
        · exact Or.inl hmem
        · exact Or.inr ⟨hmem, hne⟩

theorem mem_foldl_btreeRemove_weak (h : WeakCmp cmp) (a : α) :
    ∀ (xs : List α) (init : List α), SortedBy cmp init →
      (a ∈ xs.foldl (fun acc x => btreeRemove cmp x acc) init ↔
        a ∈ init ∧ ∀ x ∈ xs, cmp a x ≠ .eq) := by
  intro xs
  induction xs with
  | nil => simp
  | cons x xs ih =>
    intro init hs
    show a ∈ xs.foldl _ (btreeRemove cmp x init) ↔ _
    rw [ih _ (sortedBy_btreeRemove hs x), mem_btreeRemove_weak h x a init hs]
    simp only [List.mem_cons]
    constructor
    · rintro ⟨⟨hmem, hne⟩, hall⟩
      refine ⟨hmem, ?_⟩
      rintro b (rfl | hb)
      · exact hne
      · exact hall b hb
    · rintro ⟨hmem, hall⟩
      exact ⟨⟨hmem, hall x (Or.inl rfl)⟩, fun b hb => hall b (Or.inr hb)⟩

/-- Two strictly sorted lists with the same elements are equal: the canonical
form of a `BTreeSet` is determined by its element set. -/
theorem sortedBy_eq_of_mem_iff (h : LawfulCmp cmp) :
    ∀ {l1 l2 : List α}, SortedBy cmp l1 → SortedBy cmp l2 →
      (∀ x, x ∈ l1 ↔ x ∈ l2) → l1 = l2 := by
  intro l1
  induction l1 with
  | nil =>
    intro l2 _ _ hiff
    cases l2 with
    | nil => rfl
    | cons b bs => exact absurd ((hiff b).mpr (List.mem_cons_self b bs)) (List.not_mem_nil b)
  | cons a as ih =>
    intro l2 hs1 hs2 hiff
    cases l2 with
    | nil => exact absurd ((hiff a).mp (List.mem_cons_self a as)) (List.not_mem_nil a)
    | cons b bs =>
      rw [SortedBy, List.pairwise_cons] at hs1 hs2
      obtain ⟨ha, has⟩ := hs1
      obtain ⟨hb, hbs⟩ := hs2
      have hab : a = b := by
        rcases List.mem_cons.mp ((hiff a).mp (List.mem_cons_self a as)) with he | hmem
        · exact he
        · rcases List.mem_cons.mp ((hiff b).mpr (List.mem_cons_self b bs)) with he | hmem2
          · exact he.symm
          · exact absurd (h.ltTrans (hb a hmem) (ha b hmem2)) (h.ltIrrefl b)
      subst hab
      have htails : ∀ x, x ∈ as ↔ x ∈ bs := by
        intro x
        constructor
        · intro hx
          rcases List.mem_cons.mp ((hiff x).mp (List.mem_cons.mpr (Or.inr hx))) with he | hmem
          · subst he
            exact absurd (ha x hx) (h.ltIrrefl x)
          · exact hmem
        · intro hx
          rcases List.mem_cons.mp ((hiff x).mpr (List.mem_cons.mpr (Or.inr hx))) with he | hmem
          · subst he
            exact absurd (hb x hx) (h.ltIrrefl x)
          · exact hmem
      rw [ih has hbs htails]

end BTreeSetModel

section DataModel

/-- Rust compares `String`s lexicographically on their bytes; since UTF-8
preserves codepoint order this is lexicographic comparison of the character
sequences, which we model on `String.data`. -/
def cmpStr : String → String → Ordering :=
  cmpOn String.data (cmpList (cmpLin (α := Char)))

/-- Comparator for `u64` fields. -/
def cmpNat : Nat → Nat → Ordering := cmpLin

/-- Comparator for `bool` fields (`false < true`, as in Rust). -/
def cmpBool : Bool → Bool → Ordering := cmpLin

theorem lawful_cmpStr : LawfulCmp cmpStr := by
  refine lawful_cmpOn ?_ (lawful_cmpList lawful_cmpLin)
  intro a b hd
  cases a
  cases b
  exact congrArg String.mk hd

theorem lawful_cmpNat : LawfulCmp cmpNat := lawful_cmpLin

theorem lawful_cmpBool : LawfulCmp cmpBool := lawful_cmpLin

/-- Modelled from the spec: the static team registry entries
(`rust_project_goals::team::TeamName`, not part of the verified source) are
opaque interned records exposing the github label (`gh_label()`) and the
display link (`name_and_link()`) used by the engine. -/
structure TeamName where
  name : String
  ghLabel : String
  nameAndLink : String
deriving DecidableEq

def TeamName.cmp : TeamName → TeamName → Ordering :=
  cmpOn (fun t => (t.name, t.ghLabel, t.nameAndLink))
    (cmpProd cmpStr (cmpProd cmpStr cmpStr))

theorem lawful_TeamName_cmp : LawfulCmp TeamName.cmp := by
  refine lawful_cmpOn ?_ (lawful_cmpProd lawful_cmpStr (lawful_cmpProd lawful_cmpStr lawful_cmpStr))
  intro a b hd
  cases a
  cases b
  simpa using hd

/-- Modelled from the spec: `IssueId` (from `gh::issue_id`, not part of the
verified source) is a repository reference plus an issue number; the
repository is modelled as its textual name. -/
structure IssueId where
  repository : String
  number : Nat
deriving DecidableEq

def IssueId.cmp : IssueId → IssueId → Ordering :=
  cmpOn (fun i => (i.repository, i.number)) (cmpProd cmpStr cmpNat)

theorem lawful_IssueId_cmp : LawfulCmp IssueId.cmp := by
  refine lawful_cmpOn ?_ (lawful_cmpProd lawful_cmpStr lawful_cmpNat)
  intro a b hd
  cases a
  cases b
  simpa using hd

/-- A github label as seen/created through the tracker API (`GhLabel`,
declared outside the verified source): a name and a color. -/
structure GhLabel where
  name : String
  color : String
deriving DecidableEq

/-- Structural comparator on labels (name, then color), used where a label
is embedded in an action value. -/
def GhLabel.cmp : GhLabel → GhLabel → Ordering :=
  cmpOn (fun l => (l.name, l.color)) (cmpProd cmpStr cmpStr)

/-- Modelled from the spec: label reconciliation diffs existing against
desired labels by **name only** — a desired label whose name already exists
is dropped regardless of color.  This comparator is the order of the
`BTreeSet<GhLabel>` used by `initialize_labels`. -/
def GhLabel.cmpByName : GhLabel → GhLabel → Ordering :=
  cmpOn GhLabel.name cmpStr

theorem lawful_GhLabel_cmp : LawfulCmp GhLabel.cmp := by
  refine lawful_cmpOn ?_ (lawful_cmpProd lawful_cmpStr lawful_cmpStr)
  intro a b hd
  cases a
  cases b
  simpa using hd

/-- The result of `PlanItem::parse_owners()` (declared outside the verified
source): a plan item annotates either a list of team asks or a list of raw
usernames, never both. -/
inductive ParsedOwners where
  | teamAsks (asks : List TeamName)
  | usernames (names : List String)
deriving DecidableEq

def ParsedOwners.cmp : ParsedOwners → ParsedOwners → Ordering
  | .teamAsks a, .teamAsks b => cmpList TeamName.cmp a b
  | .teamAsks _, .usernames _ => .lt
  | .usernames _, .teamAsks _ => .gt
  | .usernames a, .usernames b => cmpList cmpStr a b

theorem lawful_ParsedOwners_cmp : LawfulCmp ParsedOwners.cmp where
  eqIff := by
    intro a b
    cases a <;> cases b <;>
      simp [ParsedOwners.cmp, (lawful_cmpList lawful_TeamName_cmp).eqIff,
        (lawful_cmpList lawful_cmpStr).eqIff]
  ltTrans := by
    intro a b c h1 h2
    cases a <;> cases b <;> cases c <;> simp_all [ParsedOwners.cmp]
    · exact (lawful_cmpList lawful_TeamName_cmp).ltTrans h1 h2
    · exact (lawful_cmpList lawful_cmpStr).ltTrans h1 h2
  gtIff := by
    intro a b
    cases a <;> cases b <;>
      simp [ParsedOwners.cmp, (lawful_cmpList lawful_TeamName_cmp).gtIff,
        (lawful_cmpList lawful_cmpStr).gtIff]

/-- A plan item of a goal-plan section: checkbox text, completion state and
the optional owner annotation (modelled in parsed form, see
`ParsedOwners`). -/
structure PlanItem where
  text : String
  isComplete : Bool
  parsedOwners : Option ParsedOwners
deriving DecidableEq

def PlanItem.cmp : PlanItem → PlanItem → Ordering :=
  cmpOn (fun p => (p.text, p.isComplete, p.parsedOwners))
    (cmpProd cmpStr (cmpProd cmpBool (cmpOption ParsedOwners.cmp)))

theorem lawful_PlanItem_cmp : LawfulCmp PlanItem.cmp := by
  refine lawful_cmpOn ?_
    (lawful_cmpProd lawful_cmpStr (lawful_cmpProd lawful_cmpBool
      (lawful_cmpOption lawful_ParsedOwners_cmp)))
  intro a b hd
  cases a
  cases b
  simpa using hd

/-- A goal-plan section: an optional subgoal heading and an ordered list of
plan items. -/
structure GoalPlan where
  subgoal : Option String
  planItems : List PlanItem
deriving DecidableEq

def GoalPlan.cmp : GoalPlan → GoalPlan → Ordering :=
  cmpOn (fun g => (g.subgoal, g.planItems))
    (cmpProd (cmpOption cmpStr) (cmpList PlanItem.cmp))

theorem lawful_GoalPlan_cmp : LawfulCmp GoalPlan.cmp := by
  refine lawful_cmpOn ?_
    (lawful_cmpProd (lawful_cmpOption lawful_cmpStr) (lawful_cmpList lawful_PlanItem_cmp))
  intro a b hd
  cases a
  cases b
  simpa using hd

/-- A team ask of a goal document; only its list of asked teams is consumed
by the engine. -/
structure TeamAsk where
  teams : List TeamName
deriving DecidableEq

def TeamAsk.cmp : TeamAsk → TeamAsk → Ordering :=
  cmpOn TeamAsk.teams (cmpList TeamName.cmp)

theorem lawful_TeamAsk_cmp : LawfulCmp TeamAsk.cmp := by
  refine lawful_cmpOn ?_ (lawful_cmpList lawful_TeamName_cmp)
  intro a b hd
  cases a
  cases b
  simpa using hd

/-- Modelled from the spec: a goal document (parsed outside the verified
source), restricted to the interface the engine consumes — title, owner
usernames, flagship status, the optional declared tracking issue, summary,
goal-plan sections, team asks, the link-path file stem, and whether the
document's status is not "not accepted". -/
structure GoalDocument where
  title : String
  ownerUsernames : List String
  isFlagship : Bool
  trackingIssue : Option IssueId
  summary : String
  goalPlans : List GoalPlan
  teamAsks : List TeamAsk
  linkPathStem : String
  isNotNotAccepted : Bool
deriving DecidableEq

def GoalDocument.cmp : GoalDocument → GoalDocument → Ordering :=
  cmpOn (fun d => (d.title, d.ownerUsernames, d.isFlagship, d.trackingIssue, d.summary,
      d.goalPlans, d.teamAsks, d.linkPathStem, d.isNotNotAccepted))
    (cmpProd cmpStr (cmpProd (cmpList cmpStr) (cmpProd cmpBool (cmpProd (cmpOption IssueId.cmp)
      (cmpProd cmpStr (cmpProd (cmpList GoalPlan.cmp) (cmpProd (cmpList TeamAsk.cmp)
        (cmpProd cmpStr cmpBool))))))))

theorem lawful_GoalDocument_cmp : LawfulCmp GoalDocument.cmp := by
  refine lawful_cmpOn ?_
    (lawful_cmpProd lawful_cmpStr (lawful_cmpProd (lawful_cmpList lawful_cmpStr)
      (lawful_cmpProd lawful_cmpBool (lawful_cmpProd (lawful_cmpOption lawful_IssueId_cmp)
        (lawful_cmpProd lawful_cmpStr (lawful_cmpProd (lawful_cmpList lawful_GoalPlan_cmp)
          (lawful_cmpProd (lawful_cmpList lawful_TeamAsk_cmp)
            (lawful_cmpProd lawful_cmpStr lawful_cmpBool))))))))
  intro a b hd
  cases a
  cases b
  simpa using hd

/-- The set of teams asked by one document (`GoalDocument::teams_with_asks`,
declared outside the verified source): the `BTreeSet` of all team names
referenced by the document's team asks. -/
def GoalDocument.teamsWithAsks (d : GoalDocument) : List TeamName :=
  btreeExtend TeamName.cmp (d.teamAsks.flatMap (fun ask => ask.teams)) []

/-- An existing tracking issue as returned by the tracker
(`ExistingGithubIssue`, declared outside the verified source): number,
title, assignee set, milestone title, body, and the lock state probed by
`was_locked()`. -/
structure ExistingIssue where
  number : Nat
  title : String
  assignees : List String
  milestone : Option String
  body : String
  wasLocked : Bool
deriving DecidableEq

end DataModel

section Actions

/-- `GithubIssue` from `rfc.rs`: the desired tracking issue derived from one
goal document.  The Rust back-reference `goal_document: &'doc GoalDocument`
is embedded by value. -/
structure GithubIssue where
  title : String
  assignees : List String
  body : String
  labels : List String
  trackingIssue : Option IssueId
  goalDocument : GoalDocument
deriving DecidableEq

/-- Comparator mirroring the derived `Ord` of `GithubIssue` (fields in
declaration order). -/
def GithubIssue.cmp : GithubIssue → GithubIssue → Ordering :=
  cmpOn (fun i => (i.title, i.assignees, i.body, i.labels, i.trackingIssue, i.goalDocument))
    (cmpProd cmpStr (cmpProd (cmpList cmpStr) (cmpProd cmpStr (cmpProd (cmpList cmpStr)
      (cmpProd (cmpOption IssueId.cmp) GoalDocument.cmp)))))

theorem lawful_GithubIssue_cmp : LawfulCmp GithubIssue.cmp := by
  refine lawful_cmpOn ?_
    (lawful_cmpProd lawful_cmpStr (lawful_cmpProd (lawful_cmpList lawful_cmpStr)
      (lawful_cmpProd lawful_cmpStr (lawful_cmpProd (lawful_cmpList lawful_cmpStr)
        (lawful_cmpProd (lawful_cmpOption lawful_IssueId_cmp) lawful_GoalDocument_cmp)))))
  intro a b hd
  cases a
  cases b
  simpa using hd

/-- `GithubAction` from `rfc.rs`: the closed union of corrective actions. -/
inductive GithubAction where
  | createLabel (label : GhLabel)
  | createIssue (issue : GithubIssue)
  | changeTitle (number : Nat) (title : String)
  | changeMilestone (number : Nat) (milestone : String)
  | comment (number : Nat) (body : String)
  | updateIssueBody (number : Nat) (body : String)
  | syncAssignees (number : Nat) (removeOwners : List String) (addOwners : List String)
  | lockIssue (number : Nat)
  | linkToTrackingIssue (goalDocument : GoalDocument) (issueId : IssueId)
deriving DecidableEq

namespace GithubAction

/-- Variant discriminant, in declaration order (Rust's derived `Ord` orders
variants this way). -/
def tag : GithubAction → Nat
  | .createLabel _ => 0
  | .createIssue _ => 1
  | .changeTitle _ _ => 2
  | .changeMilestone _ _ => 3
  | .comment _ _ => 4
  | .updateIssueBody _ _ => 5
  | .syncAssignees _ _ _ => 6
  | .lockIssue _ => 7
  | .linkToTrackingIssue _ _ => 8

/-- Field comparison for two actions of the same variant (fields in
declaration order); irrelevant for distinct variants. -/
def diag : GithubAction → GithubAction → Ordering
  | .createLabel a, .createLabel b => GhLabel.cmp a b
  | .createIssue a, .createIssue b => GithubIssue.cmp a b
  | .changeTitle n1 t1, .changeTitle n2 t2 => cmpProd cmpNat cmpStr (n1, t1) (n2, t2)
  | .changeMilestone n1 m1, .changeMilestone n2 m2 => cmpProd cmpNat cmpStr (n1, m1) (n2, m2)
  | .comment n1 b1, .comment n2 b2 => cmpProd cmpNat cmpStr (n1, b1) (n2, b2)
  | .updateIssueBody n1 b1, .updateIssueBody n2 b2 => cmpProd cmpNat cmpStr (n1, b1) (n2, b2)
  | .syncAssignees n1 r1 a1, .syncAssignees n2 r2 a2 =>
      cmpProd cmpNat (cmpProd (cmpList cmpStr) (cmpList cmpStr)) (n1, r1, a1) (n2, r2, a2)
  | .lockIssue n1, .lockIssue n2 => cmpNat n1 n2
  | .linkToTrackingIssue g1 i1, .linkToTrackingIssue g2 i2 =>
      cmpProd GoalDocument.cmp IssueId.cmp (g1, i1) (g2, i2)
  | _, _ => .eq

/-- Comparator mirroring the derived `Ord` of `GithubAction`: variant
first, then fields. -/
def cmp (a b : GithubAction) : Ordering :=
  (cmpLin a.tag b.tag).then (a.diag b)

end GithubAction

theorem GithubAction.diag_eq_iff :
    ∀ a b : GithubAction, a.tag = b.tag → (a.diag b = .eq ↔ a = b) := by
  intro a b h
  cases a <;> cases b <;> simp only [GithubAction.tag] at h <;> try omega
  · simp [GithubAction.diag, lawful_GhLabel_cmp.eqIff]
  · simp [GithubAction.diag, lawful_GithubIssue_cmp.eqIff]
  · simp [GithubAction.diag, (lawful_cmpProd lawful_cmpNat lawful_cmpStr).eqIff]
  · simp [GithubAction.diag, (lawful_cmpProd lawful_cmpNat lawful_cmpStr).eqIff]
  · simp [GithubAction.diag, (lawful_cmpProd lawful_cmpNat lawful_cmpStr).eqIff]
  · simp [GithubAction.diag, (lawful_cmpProd lawful_cmpNat lawful_cmpStr).eqIff]
  · simp [GithubAction.diag,
      (lawful_cmpProd lawful_cmpNat (lawful_cmpProd (lawful_cmpList lawful_cmpStr)
        (lawful_cmpList lawful_cmpStr))).eqIff]
  · simp [GithubAction.diag, lawful_cmpNat.eqIff]
  · simp [GithubAction.diag,
      (lawful_cmpProd lawful_GoalDocument_cmp lawful_IssueId_cmp).eqIff]

theorem GithubAction.diag_trans :
    ∀ a b c : GithubAction, a.tag = b.tag → b.tag = c.tag →
      a.diag b = .lt → b.diag c = .lt → a.diag c = .lt := by
  intro a b c h1 h2 h3 h4
  cases a <;> cases b <;> simp only [GithubAction.tag] at h1 <;> try omega
  all_goals (cases c <;> simp only [GithubAction.tag] at h2 <;> try omega)
  all_goals simp only [GithubAction.diag] at h3 h4 ⊢
  · exact lawful_GhLabel_cmp.ltTrans h3 h4
  · exact lawful_GithubIssue_cmp.ltTrans h3 h4
  · exact (lawful_cmpProd lawful_cmpNat lawful_cmpStr).ltTrans h3 h4
  · exact (lawful_cmpProd lawful_cmpNat lawful_cmpStr).ltTrans h3 h4
  · exact (lawful_cmpProd lawful_cmpNat lawful_cmpStr).ltTrans h3 h4
  · exact (lawful_cmpProd lawful_cmpNat lawful_cmpStr).ltTrans h3 h4
  · exact (lawful_cmpProd lawful_cmpNat (lawful_cmpProd (lawful_cmpList lawful_cmpStr)
      (lawful_cmpList lawful_cmpStr))).ltTrans h3 h4
  · exact lawful_cmpNat.ltTrans h3 h4
  · exact (lawful_cmpProd lawful_GoalDocument_cmp lawful_IssueId_cmp).ltTrans h3 h4

theorem GithubAction.diag_gt_iff :
    ∀ a b : GithubAction, a.tag = b.tag → (a.diag b = .gt ↔ b.diag a = .lt) := by
  intro a b h
  cases a <;> cases b <;> simp only [GithubAction.tag] at h <;> try omega
  · exact lawful_GhLabel_cmp.gtIff _ _
  · exact lawful_GithubIssue_cmp.gtIff _ _
  · exact (lawful_cmpProd lawful_cmpNat lawful_cmpStr).gtIff _ _
  · exact (lawful_cmpProd lawful_cmpNat lawful_cmpStr).gtIff _ _
  · exact (lawful_cmpProd lawful_cmpNat lawful_cmpStr).gtIff _ _
  · exact (lawful_cmpProd lawful_cmpNat lawful_cmpStr).gtIff _ _
  · exact (lawful_cmpProd lawful_cmpNat (lawful_cmpProd (lawful_cmpList lawful_cmpStr)
      (lawful_cmpList lawful_cmpStr))).gtIff _ _
  · exact lawful_cmpNat.gtIff _ _
  · exact (lawful_cmpProd lawful_GoalDocument_cmp lawful_IssueId_cmp).gtIff _ _

theorem lawful_GithubAction_cmp : LawfulCmp GithubAction.cmp where
  eqIff := by
    intro a b
    unfold GithubAction.cmp
    rw [Ordering.then_eq_eq, cmpLin_eq_iff]
    constructor
    · rintro ⟨ht, hd⟩
      exact (GithubAction.diag_eq_iff a b ht).mp hd
    · rintro rfl
      exact ⟨rfl, (GithubAction.diag_eq_iff a a rfl).mpr rfl⟩
  ltTrans := by
    intro a b c h1 h2
    unfold GithubAction.cmp at h1 h2 ⊢
    rw [Ordering.then_eq_lt] at h1 h2 ⊢
    rw [cmpLin_lt_iff, cmpLin_eq_iff] at h1 h2 ⊢
    rcases h1 with h1 | ⟨h1e, h1l⟩ <;> rcases h2 with h2 | ⟨h2e, h2l⟩
    · exact Or.inl (lt_trans h1 h2)
    · exact Or.inl (h2e ▸ h1)
    · exact Or.inl (h1e ▸ h2)
    · exact Or.inr ⟨h1e.trans h2e, GithubAction.diag_trans a b c h1e h2e h1l h2l⟩
  gtIff := by
    intro a b
    unfold GithubAction.cmp
    rw [Ordering.then_eq_gt, Ordering.then_eq_lt, cmpLin_gt_iff, ← cmpLin_lt_iff]
    constructor
    · rintro (hg | ⟨he, hg⟩)
      · exact Or.inl hg
      · rw [cmpLin_eq_iff] at he
        refine Or.inr ⟨by rw [cmpLin_eq_iff]; exact he.symm, ?_⟩
        exact (GithubAction.diag_gt_iff a b he).mp hg
    · rintro (hg | ⟨he, hg⟩)
      · exact Or.inl hg
      · rw [cmpLin_eq_iff] at he
        refine Or.inr ⟨by rw [cmpLin_eq_iff]; exact he.symm, ?_⟩
        exact (GithubAction.diag_gt_iff a b he.symm).mpr hg

end Actions

section SourceEmbedding

/-- `str::contains` on the character-list view: does `hay` contain `needle`
as a contiguous substring? -/
def strContainsList (needle : List Char) : List Char → Bool
  | [] => needle.isEmpty
  | h :: t => needle.isPrefixOf (h :: t) || strContainsList needle t

/-- `hay.contains(needle)` for strings. -/
def str_contains (hay needle : String) : Bool :=
  strContainsList needle.data hay.data

/-- `BTreeSet<String>::difference(...).cloned().collect()` on the canonical
sorted-list representation: elements of `xs` not in `ys`, in order. -/
def listDiff (xs ys : List String) : List String :=
  xs.filter (fun x => !(ys.contains x))

/-- Color of the per-team labels (`TEAM_LABEL_COLOR` in
`initialize_labels`). -/
def TEAM_LABEL_COLOR : String := "bfd4f2"

/-- The flagship label (`FLAGSHIP_LABEL`, declared outside the verified
source; `issue` pushes the same text as a literal). -/
def FLAGSHIP_LABEL : String := "Flagship Goal"

/-- Modelled from the spec: the fixed lock-notice comment body (`LOCK_TEXT`,
declared outside the verified source). -/
def LOCK_TEXT : String := "Locked for status updates only."

/-- Modelled from the spec: the fixed lead text of the continuation comment
(`CONTINUING_GOAL_PREFIX` in the source, declared outside the verified
source; the comment body is this text followed by a space and the
timeframe). -/
def CONTINUING_GOAL_LEAD : String := "Continuing the goal in"

/-- `goal_document_link` from `rfc.rs`: the canonical permalink markdown for
a (timeframe, document) pair. -/
def goal_document_link (timeframe : String) (document : GoalDocument) : String :=
  "[" ++ timeframe ++ "/" ++ document.linkPathStem ++
    "](https://rust-lang.github.io/rust-project-goals/" ++ timeframe ++ "/" ++
    document.linkPathStem ++ ".html)"

/-- `task_items` from `rfc.rs`: the checklist lines of one goal-plan
section.  (`parse_owners` failures cannot occur in the parsed model, so the
function is total here.) -/
def task_items (goal_plan : GoalPlan) : List String :=
  (match goal_plan.subgoal with
    | some title => ["### " ++ title]
    | none => []) ++
  goal_plan.planItems.map (fun plan_item =>
    let description := "* " ++ (if plan_item.isComplete then "[x]" else "[ ]") ++ " " ++
      plan_item.text
    match plan_item.parsedOwners with
    | some (ParsedOwners.teamAsks asks) =>
        description ++ " (" ++
          String.intercalate ", " (asks.map TeamName.nameAndLink) ++ " ![Team][])"
    | some (ParsedOwners.usernames usernames) =>
        description ++ " (" ++ String.intercalate ", " usernames ++ ")"
    | none => description)

/-- The `tasks` accumulator of `issue_text`: checklist lines of all
goal-plan sections in document order. -/
def issueTasks (document : GoalDocument) : List String :=
  document.goalPlans.flatMap task_items

/-- `issue_text` from `rfc.rs`: the generated issue body. -/
def issue_text (timeframe : String) (document : GoalDocument) : String :=
  let tasks := issueTasks document
  let teams := document.teamsWithAsks.map TeamName.nameAndLink
  "\n| Metadata         | |\n| --------         | --- |\n| Point of contact | " ++
    String.intercalate ", " document.ownerUsernames ++
    " |\n| Team(s)          | " ++
    String.intercalate ", " teams ++
    " |\n| Goal document    | " ++
    goal_document_link timeframe document ++
    " |\n\n## Summary\n\n" ++
    document.summary ++
    "\n\n## Tasks and status\n\n" ++
    String.intercalate "\n" tasks ++
    "\n\n[Team]: https://img.shields.io/badge/Team%20ask-red\n"

/-- `issue` from `rfc.rs`: the desired `GithubIssue` derived from one goal
document.  The person directory (`get_person_data`, an external
collaborator) is passed as `persons : String → Option String`, mapping an
owner username to its github handle; missing entries are dropped. -/
def issue (timeframe : String) (persons : String → Option String)
    (document : GoalDocument) : GithubIssue where
  title := document.title
  assignees := btreeExtend cmpStr (document.ownerUsernames.filterMap persons) []
  body := issue_text timeframe document
  labels := ["C-tracking-issue"] ++
    (if document.isFlagship then ["Flagship Goal"] else []) ++
    document.teamsWithAsks.map TeamName.ghLabel
  trackingIssue := document.trackingIssue
  goalDocument := document

/-- `teams_with_asks` from `rfc.rs`: the `BTreeSet` of all teams referenced
by any document's team asks. -/
def teams_with_asks (goal_documents : List GoalDocument) : List TeamName :=
  btreeExtend TeamName.cmp
    (goal_documents.flatMap (fun g => g.teamAsks.flatMap (fun ask => ask.teams))) []

/-- `initialize_labels` from `rfc.rs`: build the desired label set (one
label per team with an ask, the tracking-issue label, the flagship label),
remove every label that already exists (by name — see
`GhLabel.cmpByName`), and emit a `CreateLabel` action per remaining
label.  The existing labels (`GhLabel::list`, an external collaborator) are
passed as a list. -/
def initialize_labels (existingLabels : List GhLabel) (teamsWithAsks : List TeamName) :
    List GithubAction :=
  let desired0 := btreeExtend GhLabel.cmpByName
    (teamsWithAsks.map (fun team => { name := team.ghLabel, color := TEAM_LABEL_COLOR })) []
  let desired1 := btreeInsert GhLabel.cmpByName
    { name := "C-tracking-issue", color := "f5f1fd" } desired0
  let desired2 := btreeInsert GhLabel.cmpByName
    { name := FLAGSHIP_LABEL, color := "5319E7" } desired1
  let remaining := existingLabels.foldl (fun acc ex => btreeRemove GhLabel.cmpByName ex acc)
    desired2
  btreeExtend GithubAction.cmp (remaining.map (fun label => GithubAction.createLabel label)) []

/-- The matching step of `initialize_issues` for one desired issue: if a
tracking id is declared, look it up by number in the milestone list, else
point-fetch by number (`fetchIssue`, the external `fetch_issue`; `none`
models a fetch error, which propagates); without a tracking id, search the
milestone list by exact title.  Result: `none` = error, `some none` = no
existing issue, `some (some ex)` = matched. -/
def findExisting (milestoneIssues : List ExistingIssue)
    (fetchIssue : Nat → Option ExistingIssue) (desired : GithubIssue) :
    Option (Option ExistingIssue) :=
  match desired.trackingIssue with
  | some trackingIssue =>
    match milestoneIssues.find? (fun i => i.number == trackingIssue.number) with
    | some i => some (some i)
    | none =>
      match fetchIssue trackingIssue.number with
      | some i => some (some i)
      | none => none
  | none => some (milestoneIssues.find? (fun i => i.title == desired.title))

/-- The actions `initialize_issues` inserts for one desired issue matched to
an existing issue, in source order: assignee sync, title change, the
milestone-change/comment pair, the lock/comment pair, the body update, and
the tracking-issue linkage. -/
def matchedActions (repo timeframe : String) (existing_issue : ExistingIssue)
    (desired_issue : GithubIssue) : List GithubAction :=
  (if existing_issue.assignees ≠ desired_issue.assignees then
     [GithubAction.syncAssignees existing_issue.number
       (listDiff existing_issue.assignees desired_issue.assignees)
       (listDiff desired_issue.assignees existing_issue.assignees)]
   else []) ++
  (if existing_issue.title ≠ desired_issue.title then
     [GithubAction.changeTitle existing_issue.number desired_issue.title]
   else []) ++
  (if existing_issue.milestone ≠ some timeframe then
     [GithubAction.changeMilestone existing_issue.number timeframe,
      GithubAction.comment existing_issue.number (CONTINUING_GOAL_LEAD ++ " " ++ timeframe)]
   else []) ++
  (if existing_issue.wasLocked = false then
     [GithubAction.lockIssue existing_issue.number,
      GithubAction.comment existing_issue.number LOCK_TEXT]
   else []) ++
  (if str_contains existing_issue.body
      (goal_document_link timeframe desired_issue.goalDocument) = false then
     [GithubAction.updateIssueBody existing_issue.number
       (desired_issue.body ++
        "\n---\nNote: we have updated the body to match the " ++ timeframe ++
        " goal. Your original text is preserved below. <details>\n" ++
        existing_issue.body ++ "\n</details>")]
   else []) ++
  (if desired_issue.trackingIssue ≠ some (IssueId.mk repo existing_issue.number) then
     [GithubAction.linkToTrackingIssue desired_issue.goalDocument
       (IssueId.mk repo existing_issue.number)]
   else [])

/-- One iteration of the per-desired-issue loop of `initialize_issues`:
either the matched-issue checks or a single `CreateIssue`. -/
def issueActionsFor (repo timeframe : String) (milestoneIssues : List ExistingIssue)
    (fetchIssue : Nat → Option ExistingIssue) (desired_issue : GithubIssue) :
    Option (List GithubAction) :=
  match findExisting milestoneIssues fetchIssue desired_issue with
  | none => none
  | some (some existing_issue) =>
      some (matchedActions repo timeframe existing_issue desired_issue)
  | some none => some [GithubAction.createIssue desired_issue]

/-- The loop of `initialize_issues` over the (sorted) desired-issue set,
accumulating actions into the action `BTreeSet`. -/
def initIssuesLoop (repo timeframe : String) (milestoneIssues : List ExistingIssue)
    (fetchIssue : Nat → Option ExistingIssue) :
    List GithubIssue → List GithubAction → Option (List GithubAction)
  | [], actions => some actions
  | desired_issue :: rest, actions =>
    match issueActionsFor repo timeframe milestoneIssues fetchIssue desired_issue with
    | none => none
    | some acts =>
      initIssuesLoop repo timeframe milestoneIssues fetchIssue rest
        (btreeExtend GithubAction.cmp acts actions)

/-- The desired-issue `BTreeSet` of `initialize_issues`. -/
def desiredIssues (timeframe : String) (persons : String → Option String)
    (goal_documents : List GoalDocument) : List GithubIssue :=
  btreeExtend GithubIssue.cmp (goal_documents.map (issue timeframe persons)) []

/-- `initialize_issues` from `rfc.rs`.  `none` models a propagated fetch
error. -/
def initialize_issues (repo timeframe : String) (milestoneIssues : List ExistingIssue)
    (fetchIssue : Nat → Option ExistingIssue) (persons : String → Option String)
    (goal_documents : List GoalDocument) : Option (List GithubAction) :=
  initIssuesLoop repo timeframe milestoneIssues fetchIssue
    (desiredIssues timeframe persons goal_documents) []

/-- One diff pass of `generate_issues` (the pure part of one loop
iteration): retain the documents that are not "not accepted", compute the
label actions, compute the issue actions, and merge both into the single
action `BTreeSet`. -/
def generate_issues_pass (repo timeframe : String) (milestoneIssues : List ExistingIssue)
    (fetchIssue : Nat → Option ExistingIssue) (persons : String → Option String)
    (existingLabels : List GhLabel) (goal_documents : List GoalDocument) :
    Option (List GithubAction) :=
  let docs := goal_documents.filter (fun gd => gd.isNotNotAccepted)
  let labelActions := initialize_labels existingLabels (teams_with_asks docs)
  match initialize_issues repo timeframe milestoneIssues fetchIssue persons docs with
  | none => none
  | some issueActions => some (btreeExtend GithubAction.cmp issueActions labelActions)

/-- The commit branch of `generate_issues`: execute every action of the
batch in order, recording each action together with its outcome, and
counting successes.  The effectful `GithubAction::execute` is abstracted by
the oracle `exec : GithubAction → Bool` (`true` = success). -/
def execute_actions (exec : GithubAction → Bool) :
    List GithubAction → Nat → List (GithubAction × Bool) × Nat
  | [], success => ([], success)
  | action :: rest, success =>
    let ok := exec action
    let next := execute_actions exec rest (if ok then success + 1 else success)
    ((action, ok) :: next.1, next.2)

/-- The end-of-batch check of `generate_issues`: if no action succeeded the
run bails with a fatal error, otherwise the loop proceeds (carrying the
execution log here). -/
def commit_batch (exec : GithubAction → Bool) (actions : List GithubAction) :
    Except String (List (GithubAction × Bool)) :=
  if (execute_actions exec actions 0).2 = 0 then Except.error "all actions failed, aborting"
  else Except.ok (execute_actions exec actions 0).1

end SourceEmbedding

theorem weak_GhLabel_cmpByName : WeakCmp GhLabel.cmpByName :=
  weak_cmpOn lawful_cmpStr.toWeakCmp

section Characterizations

/-- Membership characterization of the per-matched-issue action list: each
action appears exactly under its source condition. -/
theorem mem_matchedActions_iff (repo timeframe : String) (ex : ExistingIssue)
    (d : GithubIssue) (a : GithubAction) :
    a ∈ matchedActions repo timeframe ex d ↔
      (ex.assignees ≠ d.assignees ∧
        a = GithubAction.syncAssignees ex.number (listDiff ex.assignees d.assignees)
          (listDiff d.assignees ex.assignees)) ∨
      (ex.title ≠ d.title ∧ a = GithubAction.changeTitle ex.number d.title) ∨
      (ex.milestone ≠ some timeframe ∧
        a = GithubAction.changeMilestone ex.number timeframe) ∨
      (ex.milestone ≠ some timeframe ∧
        a = GithubAction.comment ex.number (CONTINUING_GOAL_LEAD ++ " " ++ timeframe)) ∨
      (ex.wasLocked = false ∧ a = GithubAction.lockIssue ex.number) ∨
      (ex.wasLocked = false ∧ a = GithubAction.comment ex.number LOCK_TEXT) ∨
      (str_contains ex.body (goal_document_link timeframe d.goalDocument) = false ∧
        a = GithubAction.updateIssueBody ex.number
          (d.body ++ "\n---\nNote: we have updated the body to match the " ++ timeframe ++
           " goal. Your original text is preserved below. <details>\n" ++ ex.body ++
           "\n</details>")) ∨
      (d.trackingIssue ≠ some (IssueId.mk repo ex.number) ∧
        a = GithubAction.linkToTrackingIssue d.goalDocument (IssueId.mk repo ex.number)) := by
  unfold matchedActions
  split_ifs with h1 h2 h3 h4 h5 h6 <;> simp_all

end Characterizations

/-- Membership characterization of the per-desired-issue action list. -/
theorem mem_issueActionsFor (repo timeframe : String) (mi : List ExistingIssue)
    (fetch : Nat → Option ExistingIssue) (d : GithubIssue) (acts : List GithubAction)
    (hsome : issueActionsFor repo timeframe mi fetch d = some acts) (a : GithubAction) :
    a ∈ acts ↔
      (∃ ex, findExisting mi fetch d = some (some ex) ∧
        a ∈ matchedActions repo timeframe ex d) ∨
      (findExisting mi fetch d = some none ∧ a = GithubAction.createIssue d) := by
  unfold issueActionsFor at hsome
  cases hf : findExisting mi fetch d with
  | none =>
    rw [hf] at hsome
    exact Option.noConfusion hsome
  | some o =>
    cases o with
    | none =>
      rw [hf] at hsome
      rw [Option.some.injEq] at hsome
      subst hsome
      simp [hf]
    | some ex =>
      rw [hf] at hsome
      rw [Option.some.injEq] at hsome
      subst hsome
      simp [hf]

/-- Membership characterization of the `initialize_issues` loop. -/
theorem mem_initIssuesLoop (repo timeframe : String) (mi : List ExistingIssue)
    (fetch : Nat → Option ExistingIssue) :
    ∀ (ds : List GithubIssue) (acc out : List GithubAction),
      initIssuesLoop repo timeframe mi fetch ds acc = some out →
      ∀ a, (a ∈ out ↔
        (∃ d ∈ ds, ∃ acts, issueActionsFor repo timeframe mi fetch d = some acts ∧ a ∈ acts) ∨
        a ∈ acc) := by
  intro ds
  induction ds with
  | nil =>
    intro acc out hout a
    unfold initIssuesLoop at hout
    rw [Option.some.injEq] at hout
    subst hout
    simp
  | cons d ds ih =>
    intro acc out hout a
    unfold initIssuesLoop at hout
    cases hd : issueActionsFor repo timeframe mi fetch d with
    | none =>
      rw [hd] at hout
      exact Option.noConfusion hout
    | some acts =>
      rw [hd] at hout
      rw [ih _ _ hout a, mem_btreeExtend lawful_GithubAction_cmp]
      simp only [List.mem_cons]
      constructor
      · rintro (⟨d2, hd2, acts2, hsome2, hmem2⟩ | hmem | hmem)
        · exact Or.inl ⟨d2, Or.inr hd2, acts2, hsome2, hmem2⟩
        · exact Or.inl ⟨d, Or.inl rfl, acts, hd, hmem⟩
        · exact Or.inr hmem
      · rintro (⟨d2, hd2 | hd2, acts2, hsome2, hmem2⟩ | hmem)
        · subst hd2
          rw [hd] at hsome2
          rw [Option.some.injEq] at hsome2
          subst hsome2
          exact Or.inr (Or.inl hmem2)
        · exact Or.inl ⟨d2, hd2, acts2, hsome2, hmem2⟩
        · exact Or.inr (Or.inr hmem)

/-- The `initialize_issues` loop keeps the action set sorted. -/
theorem sorted_initIssuesLoop (repo timeframe : String) (mi : List ExistingIssue)
    (fetch : Nat → Option ExistingIssue) :
    ∀ (ds : List GithubIssue) (acc out : List GithubAction),
      SortedBy GithubAction.cmp acc →
      initIssuesLoop repo timeframe mi fetch ds acc = some out →
      SortedBy GithubAction.cmp out := by
  intro ds
  induction ds with
  | nil =>
    intro acc out hacc hout
    unfold initIssuesLoop at hout
    rw [Option.some.injEq] at hout
    subst hout
    exact hacc
  | cons d ds ih =>
    intro acc out hacc hout
    unfold initIssuesLoop at hout
    cases hd : issueActionsFor repo timeframe mi fetch d with
    | none =>
      rw [hd] at hout
      exact Option.noConfusion hout
    | some acts =>
      rw [hd] at hout
      exact ih _ _
        (sortedBy_btreeExtend_weak lawful_GithubAction_cmp.toWeakCmp acts acc hacc) hout

/-- Every action emitted by `initialize_labels` is a `CreateLabel`, and its
label survived the name-only removal of every existing label. -/
theorem mem_initialize_labels (existingLabels : List GhLabel) (teams : List TeamName)
    (a : GithubAction) (hmem : a ∈ initialize_labels existingLabels teams) :
    ∃ label, a = GithubAction.createLabel label ∧
      ∀ ex ∈ existingLabels, GhLabel.cmpByName label ex ≠ .eq := by
  unfold initialize_labels at hmem
  rcases (mem_btreeExtend lawful_GithubAction_cmp a _ _).mp hmem with hmap | hnil
  · rcases List.mem_map.mp hmap with ⟨label, hlabel, heq⟩
    refine ⟨label, heq.symm, ?_⟩
    have hsorted : SortedBy GhLabel.cmpByName
        (btreeInsert GhLabel.cmpByName { name := FLAGSHIP_LABEL, color := "5319E7" }
          (btreeInsert GhLabel.cmpByName { name := "C-tracking-issue", color := "f5f1fd" }
            (btreeExtend GhLabel.cmpByName
              (teams.map (fun team => { name := team.ghLabel, color := TEAM_LABEL_COLOR })) []))) := by
      refine sortedBy_btreeInsert_weak weak_GhLabel_cmpByName _ _
        (sortedBy_btreeInsert_weak weak_GhLabel_cmpByName _ _
          (sortedBy_btreeExtend_weak weak_GhLabel_cmpByName _ _ ?_))
      simp [SortedBy]
    exact ((mem_foldl_btreeRemove_weak weak_GhLabel_cmpByName label existingLabels _
      hsorted).mp hlabel).2
  · exact absurd hnil (List.not_mem_nil a)

/-- The label actions are sorted by the action comparator. -/
theorem sorted_initialize_labels (existingLabels : List GhLabel) (teams : List TeamName) :
    SortedBy GithubAction.cmp (initialize_labels existingLabels teams) := by
  unfold initialize_labels
  refine sortedBy_btreeExtend_weak lawful_GithubAction_cmp.toWeakCmp _ _ ?_
  simp [SortedBy]

/-- Decomposition of one diff pass: the output exists iff the issue diff
succeeded, and then membership is the union of issue actions and label
actions. -/
theorem generate_issues_pass_spec (repo timeframe : String) (mi : List ExistingIssue)
    (fetch : Nat → Option ExistingIssue) (persons : String → Option String)
    (existingLabels : List GhLabel) (docs : List GoalDocument) (out : List GithubAction)
    (hout : generate_issues_pass repo timeframe mi fetch persons existingLabels docs = some out) :
    ∃ issueActs,
      initialize_issues repo timeframe mi fetch persons
        (docs.filter (fun gd => gd.isNotNotAccepted)) = some issueActs ∧
      ∀ a, (a ∈ out ↔ a ∈ issueActs ∨
        a ∈ initialize_labels existingLabels
          (teams_with_asks (docs.filter (fun gd => gd.isNotNotAccepted)))) := by
  cases hi : initialize_issues repo timeframe mi fetch persons
      (docs.filter (fun gd => gd.isNotNotAccepted)) with
  | none =>
    simp only [generate_issues_pass, hi] at hout
    exact Option.noConfusion hout
  | some issueActs =>
    simp only [generate_issues_pass, hi, Option.some.injEq] at hout
    subst hout
    exact ⟨issueActs, rfl, fun a => mem_btreeExtend lawful_GithubAction_cmp a _ _⟩

/-- One diff pass produces a sorted (hence duplicate-free) action list. -/
theorem sorted_generate_issues_pass (repo timeframe : String) (mi : List ExistingIssue)
    (fetch : Nat → Option ExistingIssue) (persons : String → Option String)
    (existingLabels : List GhLabel) (docs : List GoalDocument) (out : List GithubAction)
    (hout : generate_issues_pass repo timeframe mi fetch persons existingLabels docs = some out) :
    SortedBy GithubAction.cmp out := by
  cases hi : initialize_issues repo timeframe mi fetch persons
      (docs.filter (fun gd => gd.isNotNotAccepted)) with
  | none =>
    simp only [generate_issues_pass, hi] at hout
    exact Option.noConfusion hout
  | some issueActs =>
    simp only [generate_issues_pass, hi, Option.some.injEq] at hout
    subst hout
    exact sortedBy_btreeExtend_weak lawful_GithubAction_cmp.toWeakCmp _ _
      (sorted_initialize_labels existingLabels _)

/-- The continuation comment can never collide with the lock-notice comment,
whatever the timeframe: the two bodies start with different characters. -/
theorem continuation_ne_lock_text (timeframe : String) :
    CONTINUING_GOAL_LEAD ++ " " ++ timeframe ≠ LOCK_TEXT := by
  obtain ⟨data⟩ := timeframe
  intro h
  have h1 : (CONTINUING_GOAL_LEAD ++ " " ++ String.mk data).data.head? = some 'C' := rfl
  rw [h] at h1
  have h2 : LOCK_TEXT.data.head? = some 'L' := rfl
  rw [h2] at h1
  exact absurd h1 (by decide)

/-- Membership in the assignee difference lists. -/
theorem mem_listDiff (xs ys : List String) (a : String) :
    a ∈ listDiff xs ys ↔ a ∈ xs ∧ a ∉ ys := by
  simp [listDiff, List.mem_filter]

/-- Origin of desired issues: exactly the issues derived from the given
documents. -/
theorem mem_desiredIssues (timeframe : String) (persons : String → Option String)
    (docs : List GoalDocument) (d : GithubIssue) :
    d ∈ desiredIssues timeframe persons docs ↔
      ∃ gd ∈ docs, d = issue timeframe persons gd := by
  unfold desiredIssues
  rw [mem_btreeExtend lawful_GithubIssue_cmp]
  simp only [List.mem_map, List.not_mem_nil, or_false]
  constructor
  · rintro ⟨gd, hgd, he⟩
    exact ⟨gd, hgd, he.symm⟩
  · rintro ⟨gd, hgd, he⟩
    exact ⟨gd, hgd, he.symm⟩

/-- The back-reference of a derived issue is its source document. -/
theorem issue_goalDocument (timeframe : String) (persons : String → Option String)
    (gd : GoalDocument) : (issue timeframe persons gd).goalDocument = gd := rfl

section FindFirst

variable {α : Type}

theorem find?_first_of_prefix_false {p : α → Bool} :
    ∀ (l1 : List α) (e : α) (l2 : List α), (∀ x ∈ l1, p x = false) → p e = true →
      List.find? p (l1 ++ e :: l2) = some e := by
  intro l1
  induction l1 with
  | nil =>
    intro e l2 _ he
    simpa using List.find?_cons_of_pos _ he
  | cons a l1 ih =>
    intro e l2 hall he
    have ha : p a = false := hall a (List.mem_cons_self a l1)
    rw [List.cons_append, List.find?_cons_of_neg _ (by simp [ha])]
    exact ih e l2 (fun x hx => hall x (List.mem_cons.mpr (Or.inr hx))) he

end FindFirst

/-- Witness fixtures: a small team, documents, and tracker states used to
instantiate the theorems below at concrete inputs. -/
def wTeam : TeamName :=
  { name := "lang", ghLabel := "T-lang", nameAndLink := "[lang]" }

def wDoc : GoalDocument :=
  { title := "Goal X"
    ownerUsernames := ["alice"]
    isFlagship := false
    trackingIssue := none
    summary := "Sum"
    goalPlans := [{ subgoal := none
                    planItems := [{ text := "Do thing", isComplete := false,
                                    parsedOwners := none }] }]
    teamAsks := []
    linkPathStem := "goal-x"
    isNotNotAccepted := true }

def wDocTracked : GoalDocument :=
  { wDoc with trackingIssue := some { repository := "r", number := 42 } }

/-- A desired issue declaring tracking id 42, whose title collides with the
decoy existing issue number 5. -/
def wDesiredTracked : GithubIssue :=
  { title := "Goal X"
    assignees := []
    body := ""
    labels := []
    trackingIssue := some { repository := "r", number := 42 }
    goalDocument := wDocTracked }

/-- Existing issue number 5 whose title equals the desired title. -/
def wDecoy : ExistingIssue :=
  { number := 5, title := "Goal X", assignees := [], milestone := none, body := "",
    wasLocked := true }

/-- Existing issue number 42 with an unrelated title. -/
def wTarget : ExistingIssue :=
  { number := 42, title := "Other", assignees := [], milestone := none, body := "",
    wasLocked := true }

/-- C1: a desired issue with a declared tracking id is matched by issue
number — first by lookup in the milestone list (first issue with that
number, regardless of any title collision), else by a point-fetch by
number — and never by title; only a desired issue without a tracking id is
matched to the first milestone issue with exactly the desired title. -/
theorem c1_match_by_tracking_id_never_title (mi : List ExistingIssue)
    (fetch : Nat → Option ExistingIssue) (d : GithubIssue) :
    (∀ t, d.trackingIssue = some t →
      ((∀ (l1 : List ExistingIssue) (e : ExistingIssue) (l2 : List ExistingIssue),
          mi = l1 ++ e :: l2 → e.number = t.number →
          (∀ x ∈ l1, x.number ≠ t.number) →
          findExisting mi fetch d = some (some e)) ∧
       ((∀ x ∈ mi, x.number ≠ t.number) →
          findExisting mi fetch d = (fetch t.number).map some))) ∧
    (d.trackingIssue = none →
      ((∀ (l1 : List ExistingIssue) (e : ExistingIssue) (l2 : List ExistingIssue),
          mi = l1 ++ e :: l2 → e.title = d.title →
          (∀ x ∈ l1, x.title ≠ d.title) →
          findExisting mi fetch d = some (some e)) ∧
       ((∀ x ∈ mi, x.title ≠ d.title) →
          findExisting mi fetch d = some none))) := by
  constructor
  · intro t ht
    constructor
    · intro l1 e l2 hmi he hl1
      subst hmi
      have hfind : List.find? (fun i => i.number == t.number) (l1 ++ e :: l2) = some e :=
        find?_first_of_prefix_false l1 e l2 (fun x hx => by simp [hl1 x hx]) (by simp [he])
      simp [findExisting, ht, hfind]
    · intro hall
      have hfind : List.find? (fun i => i.number == t.number) mi = none :=
        List.find?_eq_none.mpr (fun x hx => by simp [hall x hx])
      cases hf : fetch t.number <;> simp [findExisting, ht, hfind, hf]
  · intro ht
    constructor
    · intro l1 e l2 hmi he hl1
      subst hmi
      have hfind : List.find? (fun i => i.title == d.title) (l1 ++ e :: l2) = some e :=
        find?_first_of_prefix_false l1 e l2 (fun x hx => by simp [hl1 x hx]) (by simp [he])
      simp [findExisting, ht, hfind]
    · intro hall
      have hfind : List.find? (fun i => i.title == d.title) mi = none :=
        List.find?_eq_none.mpr (fun x hx => by simp [hall x hx])
      simp [findExisting, ht, hfind]

theorem c1_match_by_tracking_id_never_title_witness :
    (findExisting [wDecoy, wTarget] (fun _ => none) wDesiredTracked = some (some wTarget)) ∧
    wDecoy.title = wDesiredTracked.title ∧ wDecoy.number ≠ wTarget.number :=
  ⟨((c1_match_by_tracking_id_never_title [wDecoy, wTarget] (fun _ => none)
        wDesiredTracked).1 { repository := "r", number := 42 } rfl).1
      [wDecoy] wTarget [] rfl rfl (by decide),
    rfl, by decide⟩

/-- Membership in a diff pass for non-`CreateLabel` actions: such an action
comes from the per-desired-issue diff of some desired issue. -/
theorem mem_pass_nonlabel (repo timeframe : String) (mi : List ExistingIssue)
    (fetch : Nat → Option ExistingIssue) (persons : String → Option String)
    (existingLabels : List GhLabel) (docs : List GoalDocument) (out : List GithubAction)
    (hout : generate_issues_pass repo timeframe mi fetch persons existingLabels docs = some out)
    (a : GithubAction) (hnl : ∀ l, a ≠ GithubAction.createLabel l) :
    a ∈ out ↔
      ∃ d ∈ desiredIssues timeframe persons (docs.filter (fun gd => gd.isNotNotAccepted)),
        ((∃ ex, findExisting mi fetch d = some (some ex) ∧
            a ∈ matchedActions repo timeframe ex d) ∨
         (findExisting mi fetch d = some none ∧ a = GithubAction.createIssue d)) := by
  obtain ⟨issueActs, hIss, hmem⟩ := generate_issues_pass_spec repo timeframe mi fetch persons
    existingLabels docs out hout
  rw [hmem a]
  have hlab : a ∉ initialize_labels existingLabels
      (teams_with_asks (docs.filter (fun gd => gd.isNotNotAccepted))) := by
    intro hl
    obtain ⟨l, he, _⟩ := mem_initialize_labels _ _ a hl
    exact hnl l he
  unfold initialize_issues at hIss
  rw [mem_initIssuesLoop repo timeframe mi fetch _ _ _ hIss a]
  simp only [List.not_mem_nil, or_false]
  constructor
  · rintro (⟨d, hd, acts, hsome, hmemacts⟩ | hl)
    · exact ⟨d, hd, (mem_issueActionsFor repo timeframe mi fetch d acts hsome a).mp hmemacts⟩
    · exact absurd hl hlab
  · rintro ⟨d, hd, ⟨ex, hfe, hmemm⟩ | ⟨hfe, he⟩⟩
    · refine Or.inl ⟨d, hd, matchedActions repo timeframe ex d, ?_, hmemm⟩
      simp [issueActionsFor, hfe]
    · refine Or.inl ⟨d, hd, [GithubAction.createIssue d], ?_, by simp [he]⟩
      simp [issueActionsFor, hfe]

/-- C2: in every action set produced by one diff pass, a `ChangeMilestone`
for issue `n` appears iff the continuation `Comment` for `n` appears, and a
`LockIssue` for `n` appears iff the lock-notice `Comment` for `n` appears
— the pairs are always emitted together. -/
theorem c2_coupled_pairs (repo timeframe : String) (mi : List ExistingIssue)
    (fetch : Nat → Option ExistingIssue) (persons : String → Option String)
    (existingLabels : List GhLabel) (docs : List GoalDocument) (out : List GithubAction)
    (hout : generate_issues_pass repo timeframe mi fetch persons existingLabels docs = some out)
    (n : Nat) :
    (GithubAction.changeMilestone n timeframe ∈ out ↔
      GithubAction.comment n (CONTINUING_GOAL_LEAD ++ " " ++ timeframe) ∈ out) ∧
    (GithubAction.lockIssue n ∈ out ↔ GithubAction.comment n LOCK_TEXT ∈ out) := by
  have key1 : ∀ (ex : ExistingIssue) (d' : GithubIssue),
      GithubAction.changeMilestone n timeframe ∈ matchedActions repo timeframe ex d' ↔
        (n = ex.number ∧ ex.milestone ≠ some timeframe) := by
    intro ex d'
    constructor
    · intro h
      simp [mem_matchedActions_iff] at h
      tauto
    · intro h
      rw [mem_matchedActions_iff]
      exact Or.inr (Or.inr (Or.inl ⟨h.2, by rw [h.1]⟩))
  have key2 : ∀ (ex : ExistingIssue) (d' : GithubIssue),
      GithubAction.comment n (CONTINUING_GOAL_LEAD ++ " " ++ timeframe) ∈
          matchedActions repo timeframe ex d' ↔
        (n = ex.number ∧ ex.milestone ≠ some timeframe) := by
    intro ex d'
    constructor
    · intro h
      simp [mem_matchedActions_iff, continuation_ne_lock_text timeframe] at h
      tauto
    · intro h
      rw [mem_matchedActions_iff]
      exact Or.inr (Or.inr (Or.inr (Or.inl ⟨h.2, by rw [h.1]⟩)))
  have key3 : ∀ (ex : ExistingIssue) (d' : GithubIssue),
      GithubAction.lockIssue n ∈ matchedActions repo timeframe ex d' ↔
        (n = ex.number ∧ ex.wasLocked = false) := by
    intro ex d'
    constructor
    · intro h
      simp [mem_matchedActions_iff] at h
      tauto
    · intro h
      rw [mem_matchedActions_iff]
      exact Or.inr (Or.inr (Or.inr (Or.inr (Or.inl ⟨h.2, by rw [h.1]⟩))))
  have key4 : ∀ (ex : ExistingIssue) (d' : GithubIssue),
      GithubAction.comment n LOCK_TEXT ∈ matchedActions repo timeframe ex d' ↔
        (n = ex.number ∧ ex.wasLocked = false) := by
    intro ex d'
    constructor
    · intro h
      simp [mem_matchedActions_iff, (continuation_ne_lock_text timeframe).symm] at h
      tauto
    · intro h
      rw [mem_matchedActions_iff]
      exact Or.inr (Or.inr (Or.inr (Or.inr (Or.inr (Or.inl ⟨h.2, by rw [h.1]⟩)))))
  have lift : ∀ (a : GithubAction) (_ : ∀ l, a ≠ GithubAction.createLabel l)
      (_ : ∀ d', a ≠ GithubAction.createIssue d')
      (C : ExistingIssue → Prop)
      (_ : ∀ ex d', a ∈ matchedActions repo timeframe ex d' ↔ C ex),
      (a ∈ out ↔
        ∃ d ∈ desiredIssues timeframe persons (docs.filter (fun gd => gd.isNotNotAccepted)),
          ∃ ex, findExisting mi fetch d = some (some ex) ∧ C ex) := by
    intro a hnl hnc C hchar
    rw [mem_pass_nonlabel repo timeframe mi fetch persons existingLabels docs out hout a hnl]
    constructor
    · rintro ⟨d, hd, ⟨ex, hfe, hmemm⟩ | ⟨_, habs⟩⟩
      · exact ⟨d, hd, ex, hfe, (hchar ex d).mp hmemm⟩
      · exact absurd habs (hnc d)
    · rintro ⟨d, hd, ex, hfe, hc⟩
      exact ⟨d, hd, Or.inl ⟨ex, hfe, (hchar ex d).mpr hc⟩⟩
  have hcm := lift (GithubAction.changeMilestone n timeframe)
    (by intro l h; exact GithubAction.noConfusion h)
    (by intro d' h; exact GithubAction.noConfusion h)
    (fun ex => n = ex.number ∧ ex.milestone ≠ some timeframe) key1
  have hcmt := lift (GithubAction.comment n (CONTINUING_GOAL_LEAD ++ " " ++ timeframe))
    (by intro l h; exact GithubAction.noConfusion h)
    (by intro d' h; exact GithubAction.noConfusion h)
    (fun ex => n = ex.number ∧ ex.milestone ≠ some timeframe) key2
  have hli := lift (GithubAction.lockIssue n)
    (by intro l h; exact GithubAction.noConfusion h)
    (by intro d' h; exact GithubAction.noConfusion h)
    (fun ex => n = ex.number ∧ ex.wasLocked = false) key3
  have hcl := lift (GithubAction.comment n LOCK_TEXT)
    (by intro l h; exact GithubAction.noConfusion h)
    (by intro d' h; exact GithubAction.noConfusion h)
    (fun ex => n = ex.number ∧ ex.wasLocked = false) key4
  exact ⟨hcm.trans hcmt.symm, hli.trans hcl.symm⟩

/-- Concrete pass input for the coupling witness: document tracked by issue
7, existing issue 7 in an old milestone, everything else already in sync. -/
def wDocT7 : GoalDocument :=
  { wDoc with trackingIssue := some { repository := "r", number := 7 } }

def wEx7 : ExistingIssue :=
  { number := 7, title := "Goal X", assignees := [], milestone := some "old",
    body := goal_document_link "t" wDocT7, wasLocked := true }

def wLabels : List GhLabel :=
  [{ name := "C-tracking-issue", color := "f5f1fd" },
   { name := FLAGSHIP_LABEL, color := "5319E7" }]

def wOut : List GithubAction :=
  [GithubAction.changeMilestone 7 "t",
   GithubAction.comment 7 (CONTINUING_GOAL_LEAD ++ " " ++ "t")]

theorem c2_coupled_pairs_witness :
    (GithubAction.changeMilestone 7 "t" ∈ wOut ↔
      GithubAction.comment 7 (CONTINUING_GOAL_LEAD ++ " " ++ "t") ∈ wOut) ∧
    (GithubAction.lockIssue 7 ∈ wOut ↔ GithubAction.comment 7 LOCK_TEXT ∈ wOut) :=
  c2_coupled_pairs "r" "t" [wEx7] (fun _ => none) (fun _ => none) wLabels [wDocT7] wOut
    (by decide) 7

/-- C3: when the existing body lacks the canonical permalink marker, an
`UpdateIssueBody` is emitted and every emitted `UpdateIssueBody` contains
the entire previous body verbatim as a substring of its new body. -/
theorem c3_body_preserved (repo timeframe : String) (ex : ExistingIssue) (d : GithubIssue)
    (h : str_contains ex.body (goal_document_link timeframe d.goalDocument) = false) :
    (∃ b, GithubAction.updateIssueBody ex.number b ∈ matchedActions repo timeframe ex d ∧
      ∃ pre post, b = pre ++ ex.body ++ post) ∧
    (∀ n b, GithubAction.updateIssueBody n b ∈ matchedActions repo timeframe ex d →
      ∃ pre post, b = pre ++ ex.body ++ post) := by
  constructor
  · refine ⟨d.body ++ "\n---\nNote: we have updated the body to match the " ++ timeframe ++
      " goal. Your original text is preserved below. <details>\n" ++ ex.body ++
      "\n</details>", ?_, ?_⟩
    · rw [mem_matchedActions_iff]
      exact Or.inr (Or.inr (Or.inr (Or.inr (Or.inr (Or.inr (Or.inl ⟨h, rfl⟩))))))
    · exact ⟨d.body ++ "\n---\nNote: we have updated the body to match the " ++ timeframe ++
        " goal. Your original text is preserved below. <details>\n", "\n</details>", rfl⟩
  · intro n b hmem
    rw [mem_matchedActions_iff] at hmem
    rcases hmem with ⟨_, habs⟩ | ⟨_, habs⟩ | ⟨_, habs⟩ | ⟨_, habs⟩ | ⟨_, habs⟩ | ⟨_, habs⟩ |
      ⟨_, heq⟩ | ⟨_, habs⟩
    · exact GithubAction.noConfusion habs
    · exact GithubAction.noConfusion habs
    · exact GithubAction.noConfusion habs
    · exact GithubAction.noConfusion habs
    · exact GithubAction.noConfusion habs
    · exact GithubAction.noConfusion habs
    · injection heq with h1 h2
      subst h2
      exact ⟨d.body ++ "\n---\nNote: we have updated the body to match the " ++ timeframe ++
        " goal. Your original text is preserved below. <details>\n", "\n</details>", rfl⟩
    · exact GithubAction.noConfusion habs

def wEx3 : ExistingIssue :=
  { number := 7, title := "Goal X", assignees := [], milestone := some "t",
    body := "my manual edits", wasLocked := true }

def wDesired3 : GithubIssue :=
  { title := "Goal X", assignees := [], body := "B", labels := [],
    trackingIssue := some { repository := "r", number := 7 }, goalDocument := wDocT7 }

theorem c3_body_preserved_witness :
    (∃ b, GithubAction.updateIssueBody wEx3.number b ∈ matchedActions "r" "t" wEx3 wDesired3 ∧
      ∃ pre post, b = pre ++ wEx3.body ++ post) ∧
    (∀ n b, GithubAction.updateIssueBody n b ∈ matchedActions "r" "t" wEx3 wDesired3 →
      ∃ pre post, b = pre ++ wEx3.body ++ post) :=
  c3_body_preserved "r" "t" wEx3 wDesired3 (by decide)

/-- C4: a desired label whose name equals the name of an existing label is
never created, regardless of any color mismatch (the label diff is by name
only). -/
theorem c4_label_diff_by_name_only (existingLabels : List GhLabel) (teams : List TeamName)
    (d : GhLabel) (hex : ∃ ex ∈ existingLabels, ex.name = d.name) :
    GithubAction.createLabel d ∉ initialize_labels existingLabels teams := by
  intro hmem
  obtain ⟨label, heq, hall⟩ := mem_initialize_labels existingLabels teams _ hmem
  injection heq with hd
  subst hd
  obtain ⟨ex, hexmem, hname⟩ := hex
  exact hall ex hexmem ((lawful_cmpStr.eqIff d.name ex.name).mpr hname.symm)

theorem c4_label_diff_by_name_only_witness :
    GithubAction.createLabel { name := "T-lang", color := TEAM_LABEL_COLOR } ∉
      initialize_labels [{ name := "T-lang", color := "000000" }] [wTeam] :=
  c4_label_diff_by_name_only [{ name := "T-lang", color := "000000" }] [wTeam]
    { name := "T-lang", color := TEAM_LABEL_COLOR }
    ⟨{ name := "T-lang", color := "000000" }, by decide, rfl⟩

/-- C5: for a matched pair, equality of the (canonically sorted) assignee
sets is element-wise set equality; equal sets emit no `SyncAssignees`;
unequal sets emit exactly one `SyncAssignees` with remove-set `existing −
desired` and add-set `desired − existing`. -/
theorem c5_assignee_sync (repo timeframe : String) (ex : ExistingIssue) (d : GithubIssue)
    (hexs : SortedBy cmpStr ex.assignees) (hds : SortedBy cmpStr d.assignees) :
    (ex.assignees = d.assignees ↔ ∀ x, x ∈ ex.assignees ↔ x ∈ d.assignees) ∧
    (ex.assignees = d.assignees →
      ∀ n r a, GithubAction.syncAssignees n r a ∉ matchedActions repo timeframe ex d) ∧
    (ex.assignees ≠ d.assignees →
      (GithubAction.syncAssignees ex.number (listDiff ex.assignees d.assignees)
          (listDiff d.assignees ex.assignees) ∈ matchedActions repo timeframe ex d ∧
       (∀ x, x ∈ listDiff ex.assignees d.assignees ↔ x ∈ ex.assignees ∧ x ∉ d.assignees) ∧
       (∀ x, x ∈ listDiff d.assignees ex.assignees ↔ x ∈ d.assignees ∧ x ∉ ex.assignees) ∧
       (∀ n r a, GithubAction.syncAssignees n r a ∈ matchedActions repo timeframe ex d →
         n = ex.number ∧ r = listDiff ex.assignees d.assignees ∧
         a = listDiff d.assignees ex.assignees))) := by
  refine ⟨?_, ?_, ?_⟩
  · constructor
    · intro he x
      rw [he]
    · intro hiff
      exact sortedBy_eq_of_mem_iff lawful_cmpStr hexs hds hiff
  · intro he n r a hmem
    rw [mem_matchedActions_iff] at hmem
    rcases hmem with ⟨hc, _⟩ | ⟨_, habs⟩ | ⟨_, habs⟩ | ⟨_, habs⟩ | ⟨_, habs⟩ | ⟨_, habs⟩ |
      ⟨_, habs⟩ | ⟨_, habs⟩
    · exact hc he
    · exact GithubAction.noConfusion habs
    · exact GithubAction.noConfusion habs
    · exact GithubAction.noConfusion habs
    · exact GithubAction.noConfusion habs
    · exact GithubAction.noConfusion habs
    · exact GithubAction.noConfusion habs
    · exact GithubAction.noConfusion habs
  · intro hne
    refine ⟨?_, fun x => mem_listDiff ex.assignees d.assignees x,
      fun x => mem_listDiff d.assignees ex.assignees x, ?_⟩
    · rw [mem_matchedActions_iff]
      exact Or.inl ⟨hne, rfl⟩
    · intro n r a hmem
      rw [mem_matchedActions_iff] at hmem
      rcases hmem with ⟨_, heq⟩ | ⟨_, habs⟩ | ⟨_, habs⟩ | ⟨_, habs⟩ | ⟨_, habs⟩ | ⟨_, habs⟩ |
        ⟨_, habs⟩ | ⟨_, habs⟩
      · injection heq with h1 h2 h3
        exact ⟨h1, h2, h3⟩
      · exact GithubAction.noConfusion habs
      · exact GithubAction.noConfusion habs
      · exact GithubAction.noConfusion habs
      · exact GithubAction.noConfusion habs
      · exact GithubAction.noConfusion habs
      · exact GithubAction.noConfusion habs
      · exact GithubAction.noConfusion habs

def wEx5 : ExistingIssue :=
  { number := 3, title := "Goal X", assignees := ["a", "b"], milestone := some "t",
    body := "", wasLocked := true }

def wDesired5 : GithubIssue :=
  { title := "Goal X", assignees := ["b", "c"], body := "", labels := [],
    trackingIssue := some { repository := "r", number := 3 }, goalDocument := wDoc }

theorem c5_assignee_sync_witness :
    (wEx5.assignees = wDesired5.assignees ↔
      ∀ x, x ∈ wEx5.assignees ↔ x ∈ wDesired5.assignees) ∧
    (wEx5.assignees = wDesired5.assignees →
      ∀ n r a, GithubAction.syncAssignees n r a ∉ matchedActions "r" "t" wEx5 wDesired5) ∧
    (wEx5.assignees ≠ wDesired5.assignees →
      (GithubAction.syncAssignees wEx5.number (listDiff wEx5.assignees wDesired5.assignees)
          (listDiff wDesired5.assignees wEx5.assignees) ∈ matchedActions "r" "t" wEx5 wDesired5 ∧
       (∀ x, x ∈ listDiff wEx5.assignees wDesired5.assignees ↔
          x ∈ wEx5.assignees ∧ x ∉ wDesired5.assignees) ∧
       (∀ x, x ∈ listDiff wDesired5.assignees wEx5.assignees ↔
          x ∈ wDesired5.assignees ∧ x ∉ wEx5.assignees) ∧
       (∀ n r a, GithubAction.syncAssignees n r a ∈ matchedActions "r" "t" wEx5 wDesired5 →
         n = wEx5.number ∧ r = listDiff wEx5.assignees wDesired5.assignees ∧
         a = listDiff wDesired5.assignees wEx5.assignees))) :=
  c5_assignee_sync "r" "t" wEx5 wDesired5 (by unfold SortedBy; decide)
    (by unfold SortedBy; decide)

/-- C6: a desired issue with no matched existing issue yields exactly one
`CreateIssue` carrying the full desired payload, and no other action for
that document in this pass. -/
theorem c6_create_when_unmatched (repo timeframe : String) (mi : List ExistingIssue)
    (fetch : Nat → Option ExistingIssue) (d : GithubIssue)
    (h : findExisting mi fetch d = some none) :
    issueActionsFor repo timeframe mi fetch d = some [GithubAction.createIssue d] := by
  simp [issueActionsFor, h]

def wDesired6 : GithubIssue :=
  { title := "Goal X", assignees := [], body := "B", labels := ["C-tracking-issue"],
    trackingIssue := none, goalDocument := wDoc }

theorem c6_create_when_unmatched_witness :
    issueActionsFor "r" "t" [] (fun _ => none) wDesired6 =
      some [GithubAction.createIssue wDesired6] :=
  c6_create_when_unmatched "r" "t" [] (fun _ => none) wDesired6 (by decide)

/-- C7: the diff of one pass is deterministic in its inputs, the action
comparator is a total order (variant, then fields) with `.eq` exactly on
structurally equal actions, and every produced action list is strictly
sorted by it and hence duplicate-free. -/
theorem c7_deterministic_sorted_dedup (repo timeframe : String) (mi : List ExistingIssue)
    (fetch : Nat → Option ExistingIssue) (persons : String → Option String)
    (existingLabels : List GhLabel) (docs : List GoalDocument) :
    LawfulCmp GithubAction.cmp ∧
    (∀ (mi2 : List ExistingIssue) (docs2 : List GoalDocument) (labels2 : List GhLabel),
      mi = mi2 → docs = docs2 → existingLabels = labels2 →
      generate_issues_pass repo timeframe mi fetch persons existingLabels docs =
        generate_issues_pass repo timeframe mi2 fetch persons labels2 docs2) ∧
    (∀ out, generate_issues_pass repo timeframe mi fetch persons existingLabels docs = some out →
      SortedBy GithubAction.cmp out ∧ out.Nodup) := by
  refine ⟨lawful_GithubAction_cmp, ?_, ?_⟩
  · rintro mi2 docs2 labels2 rfl rfl rfl
    rfl
  · intro out hout
    have hs := sorted_generate_issues_pass repo timeframe mi fetch persons existingLabels docs
      out hout
    exact ⟨hs, hs.nodup lawful_GithubAction_cmp⟩

theorem c7_deterministic_sorted_dedup_witness :
    (generate_issues_pass "r" "t" [wEx7] (fun _ => none) (fun _ => none) wLabels [wDocT7] =
      generate_issues_pass "r" "t" [wEx7] (fun _ => none) (fun _ => none) wLabels [wDocT7]) ∧
    SortedBy GithubAction.cmp wOut ∧ wOut.Nodup :=
  ⟨(c7_deterministic_sorted_dedup "r" "t" [wEx7] (fun _ => none) (fun _ => none) wLabels
      [wDocT7]).2.1 [wEx7] [wDocT7] wLabels rfl rfl rfl,
   (c7_deterministic_sorted_dedup "r" "t" [wEx7] (fun _ => none) (fun _ => none) wLabels
      [wDocT7]).2.2 wOut (by decide)⟩

theorem execute_actions_log (exec : GithubAction → Bool) :
    ∀ (l : List GithubAction) (s : Nat), (execute_actions exec l s).1.map Prod.fst = l := by
  intro l
  induction l with
  | nil =>
    intro s
    rfl
  | cons a rest ih =>
    intro s
    unfold execute_actions
    simp [ih]

theorem execute_actions_successes (exec : GithubAction → Bool) :
    ∀ (l : List GithubAction) (s : Nat), (execute_actions exec l s).2 = s + l.countP exec := by
  intro l
  induction l with
  | nil =>
    intro s
    simp [execute_actions]
  | cons a rest ih =>
    intro s
    unfold execute_actions
    cases ha : exec a <;> simp [ha, ih, List.countP_cons] <;> omega

/-- C8: the executor attempts every action of a commit batch regardless of
individual failures, and the run is fatal iff every action failed (zero
successes); otherwise it proceeds with the batch's log. -/
theorem c8_batch_failure_isolation (exec : GithubAction → Bool) (actions : List GithubAction) :
    ((execute_actions exec actions 0).1.map Prod.fst = actions) ∧
    ((∃ msg, commit_batch exec actions = Except.error msg) ↔ ∀ a ∈ actions, exec a = false) ∧
    ((∃ a ∈ actions, exec a = true) →
      commit_batch exec actions = Except.ok (execute_actions exec actions 0).1) := by
  have hsnd : (execute_actions exec actions 0).2 = actions.countP exec := by
    rw [execute_actions_successes]
    omega
  refine ⟨execute_actions_log exec actions 0, ?_, ?_⟩
  · constructor
    · rintro ⟨msg, h⟩
      unfold commit_batch at h
      by_cases hz : (execute_actions exec actions 0).2 = 0
      · rw [hsnd] at hz
        intro a ha
        have hna := List.countP_eq_zero.mp hz a ha
        cases hb : exec a
        · rfl
        · exact absurd hb hna
      · rw [if_neg hz] at h
        exact Except.noConfusion h
    · intro hall
      have hz : actions.countP exec = 0 :=
        List.countP_eq_zero.mpr (fun a ha => by simp [hall a ha])
      exact ⟨"all actions failed, aborting", by simp [commit_batch, hsnd, hz]⟩
  · rintro ⟨a, ha, hsucc⟩
    have hnz : actions.countP exec ≠ 0 := by
      intro hz
      have := List.countP_eq_zero.mp hz a ha
      simp [hsucc] at this
    simp [commit_batch, hsnd, hnz]

theorem c8_batch_failure_isolation_witness :
    ((execute_actions (fun _ => true) wOut 0).1.map Prod.fst = wOut) ∧
    commit_batch (fun _ => true) wOut = Except.ok (execute_actions (fun _ => true) wOut 0).1 ∧
    (∃ msg, commit_batch (fun _ => false) wOut = Except.error msg) :=
  ⟨(c8_batch_failure_isolation (fun _ => true) wOut).1,
   (c8_batch_failure_isolation (fun _ => true) wOut).2.2
     ⟨GithubAction.changeMilestone 7 "t", by decide, rfl⟩,
   (c8_batch_failure_isolation (fun _ => false) wOut).2.1.mpr (fun a _ => rfl)⟩

/-- The checklist line for one plan item as the specification words it: a
checkbox (`[x]` when complete, else `[ ]`) followed by the item text; a
comma-joined list of team links plus the shared badge marker when team asks
are declared; a comma-joined username list when raw usernames are declared
instead; never both. -/
def specItemLine (item : PlanItem) : String :=
  let checkbox := if item.isComplete then "[x]" else "[ ]"
  let base := "* " ++ checkbox ++ " " ++ item.text
  match item.parsedOwners with
  | some (ParsedOwners.teamAsks asks) =>
      base ++ " (" ++ String.intercalate ", " (asks.map TeamName.nameAndLink) ++ " ![Team][])"
  | some (ParsedOwners.usernames names) =>
      base ++ " (" ++ String.intercalate ", " names ++ ")"
  | none => base

/-- C9: the generated checklist is emitted exactly in specification order —
goal-plan sections in document order, a subgoal heading line (when
declared) before that section's items, then the plan items in declared
order, each rendered by `specItemLine` — and the joined checklist sits
verbatim inside the generated issue body. -/
theorem c9_checklist_emission_order (timeframe : String) (d : GoalDocument) :
    (∀ gp heading, gp.subgoal = some heading →
      task_items gp = ("### " ++ heading) :: gp.planItems.map specItemLine) ∧
    (∀ gp, gp.subgoal = none → task_items gp = gp.planItems.map specItemLine) ∧
    issueTasks d = d.goalPlans.flatMap task_items ∧
    (∃ pre post,
      issue_text timeframe d =
        pre ++ String.intercalate "\n" (issueTasks d) ++ post) := by
  refine ⟨?_, ?_, rfl, ?_⟩
  · intro gp heading hsub
    simp only [task_items, hsub, List.singleton_append]
    rfl
  · intro gp hsub
    simp only [task_items, hsub, List.nil_append]
    rfl
  · refine ⟨"\n| Metadata         | |\n| --------         | --- |\n| Point of contact | " ++
      String.intercalate ", " d.ownerUsernames ++
      " |\n| Team(s)          | " ++
      String.intercalate ", " (d.teamsWithAsks.map TeamName.nameAndLink) ++
      " |\n| Goal document    | " ++
      goal_document_link timeframe d ++
      " |\n\n## Summary\n\n" ++
      d.summary ++
      "\n\n## Tasks and status\n\n",
      "\n\n[Team]: https://img.shields.io/badge/Team%20ask-red\n", rfl⟩

/-- C10: goal documents whose status is "not accepted" are filtered out
before the desired state is built — the pass is unchanged by dropping them,
every desired issue stems from a retained document, and every
document-referencing action (`CreateIssue`, `LinkToTrackingIssue`) of the
pass references a retained document. -/
theorem c10_not_accepted_filtered (repo timeframe : String) (mi : List ExistingIssue)
    (fetch : Nat → Option ExistingIssue) (persons : String → Option String)
    (existingLabels : List GhLabel) (docs : List GoalDocument) :
    (generate_issues_pass repo timeframe mi fetch persons existingLabels docs =
      generate_issues_pass repo timeframe mi fetch persons existingLabels
        (docs.filter (fun gd => gd.isNotNotAccepted))) ∧
    (∀ d ∈ desiredIssues timeframe persons (docs.filter (fun gd => gd.isNotNotAccepted)),
      d.goalDocument.isNotNotAccepted = true) ∧
    (∀ out, generate_issues_pass repo timeframe mi fetch persons existingLabels docs = some out →
      ∀ a ∈ out,
        (∀ i, a = GithubAction.createIssue i → i.goalDocument.isNotNotAccepted = true) ∧
        (∀ gd iid, a = GithubAction.linkToTrackingIssue gd iid →
          gd.isNotNotAccepted = true)) := by
  have hdes : ∀ d ∈ desiredIssues timeframe persons
      (docs.filter (fun gd => gd.isNotNotAccepted)), d.goalDocument.isNotNotAccepted = true := by
    intro d hd
    rw [mem_desiredIssues] at hd
    obtain ⟨gd, hgd, rfl⟩ := hd
    rw [issue_goalDocument]
    exact (List.mem_filter.mp hgd).2
  refine ⟨?_, hdes, ?_⟩
  · simp [generate_issues_pass, List.filter_filter]
  · intro out hout a ha
    constructor
    · rintro i rfl
      rw [mem_pass_nonlabel repo timeframe mi fetch persons existingLabels docs out hout _
        (by intro l h; exact GithubAction.noConfusion h)] at ha
      obtain ⟨d, hd, hcase⟩ := ha
      rcases hcase with ⟨ex, _, hmemm⟩ | ⟨_, heq⟩
      · rw [mem_matchedActions_iff] at hmemm
        rcases hmemm with ⟨_, habs⟩ | ⟨_, habs⟩ | ⟨_, habs⟩ | ⟨_, habs⟩ | ⟨_, habs⟩ |
          ⟨_, habs⟩ | ⟨_, habs⟩ | ⟨_, habs⟩ <;> exact GithubAction.noConfusion habs
      · injection heq with hi
        rw [hi]
        exact hdes d hd
    · rintro gd iid rfl
      rw [mem_pass_nonlabel repo timeframe mi fetch persons existingLabels docs out hout _
        (by intro l h; exact GithubAction.noConfusion h)] at ha
      obtain ⟨d, hd, hcase⟩ := ha
      rcases hcase with ⟨ex, _, hmemm⟩ | ⟨_, habs⟩
      · rw [mem_matchedActions_iff] at hmemm
        rcases hmemm with ⟨_, habs⟩ | ⟨_, habs⟩ | ⟨_, habs⟩ | ⟨_, habs⟩ | ⟨_, habs⟩ |
          ⟨_, habs⟩ | ⟨_, habs⟩ | ⟨_, heq⟩
        · exact GithubAction.noConfusion habs
        · exact GithubAction.noConfusion habs
        · exact GithubAction.noConfusion habs
        · exact GithubAction.noConfusion habs
        · exact GithubAction.noConfusion habs
        · exact GithubAction.noConfusion habs
        · exact GithubAction.noConfusion habs
        · injection heq with hgd hiid
          rw [hgd]
          exact hdes d hd
      · exact GithubAction.noConfusion habs

def wDocRejected : GoalDocument :=
  { wDoc with title := "Goal Y", isNotNotAccepted := false }

set_option maxRecDepth 8000 in
theorem c10_not_accepted_filtered_witness :
    (issue "t" (fun _ => none) wDoc).goalDocument.isNotNotAccepted = true ∧
    generate_issues_pass "r" "t" [] (fun _ => none) (fun _ => none) wLabels
        [wDoc, wDocRejected] =
      generate_issues_pass "r" "t" [] (fun _ => none) (fun _ => none) wLabels
        ([wDoc, wDocRejected].filter (fun gd => gd.isNotNotAccepted)) :=
  ⟨((c10_not_accepted_filtered "r" "t" [] (fun _ => none) (fun _ => none) wLabels
        [wDoc, wDocRejected]).2.2
      [GithubAction.createIssue (issue "t" (fun _ => none) wDoc)] (by decide)
      (GithubAction.createIssue (issue "t" (fun _ => none) wDoc)) (by decide)).1
      (issue "t" (fun _ => none) wDoc) rfl,
   (c10_not_accepted_filtered "r" "t" [] (fun _ => none) (fun _ => none) wLabels
      [wDoc, wDocRejected]).1⟩

def wPlanItem : PlanItem :=
  { text := "Do thing", isComplete := false, parsedOwners := none }

def wPlanItemDone : PlanItem :=
  { text := "Do thing", isComplete := true, parsedOwners := none }

def wPlanHeaded : GoalPlan := { subgoal := some "H", planItems := [wPlanItem] }

def wPlanPlain : GoalPlan := { subgoal := none, planItems := [wPlanItemDone] }

theorem c9_checklist_emission_order_witness :
    (task_items wPlanHeaded = ("### " ++ "H") :: [wPlanItem].map specItemLine) ∧
    (task_items wPlanPlain = [wPlanItemDone].map specItemLine) ∧
    (∃ pre post,
      issue_text "t" wDoc = pre ++ String.intercalate "\n" (issueTasks wDoc) ++ post) :=
  ⟨(c9_checklist_emission_order "t" wDoc).1 wPlanHeaded "H" rfl,
   (c9_checklist_emission_order "t" wDoc).2.1 wPlanPlain rfl,
   (c9_checklist_emission_order "t" wDoc).2.2.2⟩
